import Mathlib

/-!
Verification of the conversation reconciliation / branch-graph engine
(`otherParsers.js`): content fingerprinting, message-graph construction
(`JSONLMerger.addFile`), true-root resolution (`findTrueRoots`),
deterministic linearization (`generateChatHistory`) with swipe expansion,
and the Gemini multi-branch adapter (`extractGeminiMultiBranchData`,
`detectOtherBranches`).

JS semantics are embedded as follows: JS numbers used by the engine are
small integers, modelled as `Nat`/`Int`; the 32-bit coercions performed by
the JS bitwise operators in `simpleHash` are modelled explicitly by
`toInt32`; JS `Map`/`Set` (insertion-ordered) are modelled as association
lists / duplicate-free lists in insertion order; absent (`undefined`)
fields are modelled with `Option`; JS string truthiness (`x || d`) is
modelled by `jsStrOr`.
-/

/-- JS `ToInt32`: coerce an integer to the range of a 32-bit signed
integer, as the JS bitwise operators do. -/
def toInt32 (x : Int) : Int := (x + 2 ^ 31) % 2 ^ 32 - 2 ^ 31

/-- One step of the `simpleHash` loop:
`hash = ((hash << 5) - hash) + char; hash = hash & hash`.
In JS, `hash << 5` is `ToInt32(hash * 32)` and `hash & hash` is
`ToInt32` of the (exactly computed) sum. -/
def simpleHashStep (hash : Int) (c : Nat) : Int :=
  toInt32 (toInt32 (hash * 32) - hash + c)

/-- The integer value accumulated by `simpleHash` over the char codes of
the string (initial hash 0). -/
def simpleHashInt (s : String) : Int :=
  s.data.foldl (fun h c => simpleHashStep h c.toNat) 0

/-- Digit character for bases up to 36, lowercase as in JS
`Number.prototype.toString(36)`. -/
def digitChar36 (d : Nat) : Char :=
  if d < 10 then Char.ofNat (48 + d) else Char.ofNat (87 + d)

/-- Fuel-driven little-endian digit expansion (structurally recursive so
that it evaluates inside the kernel).  With fuel at least `n` it agrees
with `Nat.digits b n` for `2 ≤ b` (`digitsRevGo_eq_digits`). -/
def digitsRevGo (b : Nat) : Nat → Nat → List Nat
  | 0, _ => []
  | fuel + 1, n => if n = 0 then [] else n % b :: digitsRevGo b fuel (n / b)

/-- Little-endian base-`b` digits of `n`, kernel-computable. -/
def digitsRev (b n : Nat) : List Nat := digitsRevGo b n n

/-- Base-36 rendering of a natural number (JS `n.toString(36)` for
nonnegative `n`). -/
def natToBase36 (n : Nat) : String :=
  if n = 0 then "0" else String.mk (((digitsRev 36 n).reverse).map digitChar36)

/-- Base-36 rendering of an integer, with a leading minus sign for
negative values, as JS `Number.prototype.toString(36)` renders the 32-bit
signed hash. -/
def intToBase36 (i : Int) : String :=
  if i < 0 then "-" ++ natToBase36 i.natAbs else natToBase36 i.toNat

/-- Decimal digit character. -/
def digitChar (d : Nat) : Char := Char.ofNat (48 + d)

/-- Decimal rendering of a natural number, as JS template literals render
the small nonnegative counters of the engine (`${msgIndex}` etc.). -/
def natRepr (n : Nat) : String :=
  if n = 0 then "0" else String.mk (((digitsRev 10 n).reverse).map digitChar)

/-- The `simpleHash` function: rolling 32-bit hash of the string rendered
in base 36. -/
def simpleHash (s : String) : String := intToBase36 (simpleHashInt s)

/-- JS string defaulting `x || d`: an absent value and the empty string
are both falsy and replaced by the default. -/
def jsStrOr (x : Option String) (d : String) : String :=
  match x with
  | none => d
  | some s => if s = "" then d else s

/-- A raw JSONL chat entry, with the fields the engine reads.  Absent
fields are `none`. -/
structure Entry where
  name : Option String
  is_user : Bool
  is_system : Bool
  mes : Option String
  swipes : Option (List String)
  swipe_id : Option Nat
  send_date : Option String
deriving Repr, DecidableEq

/-- The content picked by `generateMessageFingerprint`:
`entry.mes || (entry.swipes?.[0] || "")`. -/
def entryContent (e : Entry) : String :=
  jsStrOr e.mes (jsStrOr (e.swipes.bind List.head?) "")

/-- The message fingerprint `sender|isUser|simpleHash(content)`
(`generateMessageFingerprint`); the timestamp is not part of it. -/
def generateMessageFingerprint (e : Entry) : String :=
  let content := entryContent e
  let sender := jsStrOr e.name ""
  let isUser := e.is_user
  sender ++ "|" ++ (if isUser then "true" else "false") ++ "|" ++ simpleHash content

/-- A node of the message graph (`class MessageNode`).  The JS `Set`
fields are insertion-ordered lists without duplicates. -/
structure MessageNode where
  fingerprint : String
  entry : Entry
  parents : List String
  children : List String
  fileIndices : List Nat
  isRoot : Bool
deriving Repr, DecidableEq

/-- A fresh node, as built by the `MessageNode` constructor. -/
def MessageNode.new (fp : String) (e : Entry) : MessageNode :=
  ⟨fp, e, [], [], [], false⟩

/-- Insertion-ordered set insertion (JS `Set.prototype.add`). -/
def setAdd [DecidableEq α] (l : List α) (a : α) : List α :=
  if a ∈ l then l else l ++ [a]

/-- Key membership in an insertion-ordered map (JS `Map.prototype.has`). -/
def mapHas (m : List (String × MessageNode)) (k : String) : Bool :=
  m.any (fun p => p.1 = k)

/-- Lookup in an insertion-ordered map (JS `Map.prototype.get`). -/
def mapGet (m : List (String × MessageNode)) (k : String) : Option MessageNode :=
  (m.find? (fun p => p.1 = k)).map Prod.snd

/-- In-place mutation of the node stored under a key, leaving the map
order unchanged, as JS mutation of the object returned by `Map.get`. -/
def updateNode (m : List (String × MessageNode)) (k : String)
    (f : MessageNode → MessageNode) : List (String × MessageNode) :=
  m.map (fun p => if p.1 = k then (p.1, f p.2) else p)

/-- The state of a `JSONLMerger` instance: the insertion-ordered
`fingerprint -> MessageNode` map and the set of file-root fingerprints. -/
structure JSONLMerger where
  nodeMap : List (String × MessageNode)
  rootFingerprints : List String
deriving Repr, DecidableEq

/-- A freshly constructed `JSONLMerger`. -/
def JSONLMerger.init : JSONLMerger := ⟨[], []⟩

/-- Processing of one entry inside `addFile`: skip system entries,
find-or-create the node for the entry's fingerprint, record the file
index, and link it to the previous entry's node (or mark it as a file
root when it is the first non-system entry of the file). -/
def addFileStep (fileIndex : Nat) (st : JSONLMerger) (prev : Option String)
    (e : Entry) : JSONLMerger × Option String :=
  if e.is_system then (st, prev)
  else
    let fp := generateMessageFingerprint e
    let m0 := if mapHas st.nodeMap fp then st.nodeMap
              else st.nodeMap ++ [(fp, MessageNode.new fp e)]
    let m1 := updateNode m0 fp (fun n => { n with fileIndices := setAdd n.fileIndices fileIndex })
    match prev with
    | some pfp =>
        let m2 := updateNode m1 fp (fun n => { n with parents := setAdd n.parents pfp })
        let m3 := if mapHas m2 pfp then
                    updateNode m2 pfp (fun n => { n with children := setAdd n.children fp })
                  else m2
        ({ st with nodeMap := m3 }, some fp)
    | none =>
        let m2 := updateNode m1 fp (fun n => { n with isRoot := true })
        ({ nodeMap := m2, rootFingerprints := setAdd st.rootFingerprints fp }, some fp)

/-- The `JSONLMerger.addFile` method: fold `addFileStep` over the file's
entries, threading the previous non-system entry's fingerprint. -/
def JSONLMerger.addFile (st : JSONLMerger) (messages : List Entry) (fileIndex : Nat) :
    JSONLMerger :=
  (messages.foldl (fun acc e => addFileStep fileIndex acc.1 acc.2 e)
    ((st, none) : JSONLMerger × Option String)).1

/-- The `JSONLMerger.findTrueRoots` method: the fingerprints (in node-map
insertion order) whose node has no parent fingerprint present in the
map. -/
def JSONLMerger.findTrueRoots (st : JSONLMerger) : List String :=
  st.nodeMap.filterMap (fun p =>
    if p.2.parents.any (fun pfp => mapHas st.nodeMap pfp) then none else some p.1)

example : simpleHash "" = "0" := by decide
example : generateMessageFingerprint
    ⟨some "Bot", false, false, some "a", none, none, some "t"⟩ =
    "Bot|false|2p" := by decide

/-- Variant (swipe) tag attached to an expanded swipe message. -/
structure SwipeInfo where
  totalSwipes : Nat
  isSelected : Bool
  swipeIndex : Nat
deriving Repr, DecidableEq

/-- Modelled from the spec: the `NormalizedMessage` record built by the
missing `MessageBuilder` helper (`helpers.js` is not part of the sources;
the spec, section 3, lists its fields) together with the branch fields
the merger sets afterwards.  `parentUuid` is an `Option` because the JS
value can be `undefined` when a degenerate `swipe_id` selects no swipe. -/
structure NormalizedMessage where
  index : Nat
  uuid : String
  parentUuid : Option String
  sender : String
  senderLabel : String
  timestamp : String
  content : String
  branch_id : String
  branch_level : Nat
  swipe_info : Option SwipeInfo
  is_branch_point : Bool
deriving Repr, DecidableEq

/-- The `JSONLMerger.createMessage` method: build the message record from
the given fields (sender is `"human"` for user entries, `"assistant"`
otherwise), then attach branch id, branch level and swipe info.  The
`name` argument is passed by the callers but unused, as in the source. -/
def JSONLMerger.createMessage (msgIndex : Nat) (uuid : String) (parentUuid : Option String)
    (_name senderLabel : String) (timestamp : String) (isUser : Bool) (messageText : String)
    (branchId : String) (branchLevel : Nat) (swipeInfo : Option SwipeInfo) :
    NormalizedMessage :=
  { index := msgIndex, uuid := uuid, parentUuid := parentUuid,
    sender := if isUser then "human" else "assistant",
    senderLabel := senderLabel, timestamp := timestamp, content := messageText,
    branch_id := branchId, branch_level := branchLevel, swipe_info := swipeInfo,
    is_branch_point := false }

/-- The generated uuid `jsonl_${branchId}_${msgIndex}_0`. -/
def mkUuid (branchId : String) (msgIndex : Nat) : String :=
  "jsonl_" ++ branchId ++ "_" ++ natRepr msgIndex ++ "_0"

/-- Key membership in the string-valued map. -/
def strMapHas (m : List (String × String)) (k : String) : Bool :=
  m.any (fun p => p.1 = k)

/-- Lookup in the string-valued map (`fpToUuid.get`). -/
def strMapGet (m : List (String × String)) (k : String) : Option String :=
  (m.find? (fun p => p.1 = k)).map Prod.snd

/-- JS `Map.prototype.set` on the string-valued map: overwrite in place,
or append a new binding. -/
def strMapSet (m : List (String × String)) (k v : String) : List (String × String) :=
  if strMapHas m k then m.map (fun p => if p.1 = k then (p.1, v) else p) else m ++ [(k, v)]

/-- The local mutable state of one `generateChatHistory` call: the
accumulated history, the `msgIndex` and `branchCounter` counters, the
`visited` set and the `fingerprint -> uuid` map. -/
structure TravState where
  chatHistory : List NormalizedMessage
  msgIndex : Nat
  branchCounter : Nat
  visited : List String
  fpToUuid : List (String × String)
deriving Repr, DecidableEq

/-- The initial traversal state of a `generateChatHistory` call. -/
def TravState.init : TravState := ⟨[], 0, 0, [], []⟩

/-- The `swipes.forEach` loop of `traverse`: each swipe becomes an
independent sibling message sharing `parentUuid`; the first swipe keeps
the current branch, every later swipe allocates a fresh branch id one
level deeper; the swipe whose index equals the selected swipe id becomes
the `currentUuid` and is recorded in `fpToUuid`; the first swipe is
tagged as a branch point when the node is a graph fork or there are
multiple swipes. -/
def swipeLoop (fp : String) (parentUuid : Option String)
    (name senderLabel timestamp : String) (isUser graphBranchPoint : Bool)
    (totalSwipes selectedSwipeId : Nat) (branchId : String) (branchLevel : Nat) :
    List String → Nat → TravState → Option String → TravState × Option String
  | [], _, ts, cur => (ts, cur)
  | swipeText :: rest, swipeIndex, ts, cur =>
      let alloc : String × Nat × TravState :=
        if swipeIndex > 0 then
          ("branch_" ++ natRepr (ts.branchCounter + 1), branchLevel + 1,
            { ts with branchCounter := ts.branchCounter + 1 })
        else (branchId, branchLevel, ts)
      let sbid := alloc.1
      let slvl := alloc.2.1
      let ts := alloc.2.2
      let swipeMsgIndex := ts.msgIndex
      let ts := { ts with msgIndex := ts.msgIndex + 1 }
      let uuid := mkUuid sbid swipeMsgIndex
      let sel : Option String × TravState :=
        if swipeIndex = selectedSwipeId then
          (some uuid, { ts with fpToUuid := strMapSet ts.fpToUuid fp uuid })
        else (cur, ts)
      let cur := sel.1
      let ts := sel.2
      let msg := JSONLMerger.createMessage swipeMsgIndex uuid parentUuid name senderLabel
        timestamp isUser swipeText sbid slvl
        (some ⟨totalSwipes, swipeIndex == selectedSwipeId, swipeIndex⟩)
      let msg := if swipeIndex = 0 ∧ (graphBranchPoint ∨ totalSwipes > 1) then
          { msg with is_branch_point := true } else msg
      let ts := { ts with chatHistory := ts.chatHistory ++ [msg] }
      swipeLoop fp parentUuid name senderLabel timestamp isUser graphBranchPoint totalSwipes
        selectedSwipeId branchId branchLevel rest (swipeIndex + 1) ts cur

/-- The `childFingerprints.forEach` loop of `traverse`, abstracted over
the recursive traversal function `tr`.  When the node has more than one
child, every child after the first allocates a fresh `branch_N` id one
level deeper; the recursive call's returned uuid is discarded, as in the
source. -/
def childLoopF (tr : String → Option String → String → Nat → TravState → TravState × Option String)
    (total : Nat) (branchId : String) (branchLevel : Nat) (currentUuid : Option String) :
    List String → Nat → TravState → TravState
  | [], _, ts => ts
  | childFp :: rest, childIndex, ts =>
      let alloc : String × Nat × TravState :=
        if total > 1 ∧ childIndex > 0 then
          ("branch_" ++ natRepr (ts.branchCounter + 1), branchLevel + 1,
            { ts with branchCounter := ts.branchCounter + 1 })
        else (branchId, branchLevel, ts)
      let ts := (tr childFp currentUuid alloc.1 alloc.2.1 alloc.2.2).1
      childLoopF tr total branchId branchLevel currentUuid rest (childIndex + 1) ts

/-- The recursive `traverse` closure of `generateChatHistory`.  A visited
fingerprint returns its recorded uuid without re-emission; an unknown
fingerprint is a dead end; otherwise the node's entry is emitted (as one
message, or as one message per swipe when a non-user entry has several
swipes) and the children are traversed.  `fuel` bounds the recursion
depth; every call chain marks a fresh fingerprint visited at each level,
so any fuel larger than the node count behaves like the untruncated JS
recursion. -/
def traverse (st : JSONLMerger) : Nat → String → Option String → String → Nat →
    TravState → TravState × Option String
  | 0, _, _, _, _, ts => (ts, none)
  | fuel + 1, fp, parentUuid, branchId, branchLevel, ts =>
      if fp ∈ ts.visited then (ts, strMapGet ts.fpToUuid fp)
      else
        let ts := { ts with visited := ts.visited ++ [fp] }
        match mapGet st.nodeMap fp with
        | none => (ts, none)
        | some node =>
            let entry := node.entry
            let name := jsStrOr entry.name "Unknown"
            let isUser := entry.is_user
            let timestamp := jsStrOr entry.send_date ""
            let senderLabel := if isUser then "User" else name
            let isBranchPoint := node.children.length > 1
            let swipes := entry.swipes.getD []
            let messageText := jsStrOr entry.mes (jsStrOr swipes.head? "")
            if !isUser ∧ swipes.length > 1 then
              let selectedSwipeId := entry.swipe_id.getD 0
              let res := swipeLoop fp parentUuid name senderLabel timestamp isUser
                isBranchPoint swipes.length selectedSwipeId branchId branchLevel
                swipes 0 ts none
              let currentUuid := res.2
              let ts := childLoopF
                (fun a b c d e => traverse st fuel a b c d e)
                node.children.length branchId branchLevel currentUuid
                node.children 0 res.1
              (ts, currentUuid)
            else
              let currentUuid := mkUuid branchId ts.msgIndex
              let ts := { ts with fpToUuid := strMapSet ts.fpToUuid fp currentUuid }
              let msg := JSONLMerger.createMessage ts.msgIndex currentUuid parentUuid name
                senderLabel timestamp isUser messageText branchId branchLevel none
              let msg := if isBranchPoint then { msg with is_branch_point := true } else msg
              let ts := { ts with chatHistory := ts.chatHistory ++ [msg],
                                  msgIndex := ts.msgIndex + 1 }
              let ts := childLoopF
                (fun a b c d e => traverse st fuel a b c d e)
                node.children.length branchId branchLevel (some currentUuid)
                node.children 0 ts
              (ts, some currentUuid)

/-- The root loop of `generateChatHistory`: the first true root starts at
branch `"main"`, level 0; when there are several true roots every later
root allocates a fresh `branch_N` id at level 1. -/
def rootLoop (st : JSONLMerger) (fuel total : Nat) :
    List String → Nat → TravState → TravState
  | [], _, ts => ts
  | rootFp :: rest, rootIndex, ts =>
      let alloc : String × Nat × TravState :=
        if total > 1 ∧ rootIndex > 0 then
          ("branch_" ++ natRepr (ts.branchCounter + 1), 1,
            { ts with branchCounter := ts.branchCounter + 1 })
        else ("main", 0, ts)
      let ts := (traverse st fuel rootFp (some "") alloc.1 alloc.2.1 alloc.2.2).1
      rootLoop st fuel total rest (rootIndex + 1) ts

/-- The `JSONLMerger.generateChatHistory` method: traverse from every
true root, starting from a fresh local traversal state.  The fuel
`nodeMap.length + 1` exceeds the deepest possible recursion (each nested
call visits a fresh node of the map), so the truncation case of
`traverse` is never reached. -/
def JSONLMerger.generateChatHistory (st : JSONLMerger) : List NormalizedMessage :=
  let trueRoots := st.findTrueRoots
  (rootLoop st (st.nodeMap.length + 1) trueRoots.length trueRoots 0 TravState.init).chatHistory

/-- The `generateChatHistory` method viewed as a call on the instance: it
reads `this.nodeMap` and `this.rootFingerprints` and mutates only
call-local state (`visited`, `fpToUuid`, the counters and the output
array are all `const`/`let` locals of the method), so the instance state
after the call is the instance state before it. -/
def JSONLMerger.generateChatHistoryCall (st : JSONLMerger) :
    List NormalizedMessage × JSONLMerger :=
  (st.generateChatHistory, st)

/-- Modelled from the spec: the reserved root sentinel
`PARSER_CONFIG.ROOT_UUID` from the missing `helpers.js` (the spec,
section 4.5, prescribes "a reserved root sentinel for turn 0"); its
concrete value is irrelevant to the claims. -/
def ROOT_UUID : String := "root"

/-- One version of a Gemini multi-branch turn side. -/
structure GeminiVersion where
  version : Nat
  text : Option String
  type : Option String
  userVersion : Option Nat
deriving Repr, DecidableEq

/-- One side (human or assistant) of a Gemini multi-branch turn. -/
structure GeminiSide where
  versions : Option (List GeminiVersion)
deriving Repr, DecidableEq

/-- One turn of a Gemini multi-branch conversation. -/
structure GeminiTurn where
  turnIndex : Nat
  human : Option GeminiSide
  assistant : Option GeminiSide
deriving Repr, DecidableEq

/-- A message produced by the Gemini multi-branch adapter, restricted to
the fields the branch detection reads and the claims mention.  The
image/canvas decoration of `display_text` is not modelled: it touches no
field below.  Underscore-prefixed JS fields (`_version`,
`_version_type`, `_user_version`) are `none` when absent. -/
structure GeminiMessage where
  index : Nat
  uuid : String
  parentUuid : String
  sender : String
  senderLabel : String
  raw_text : String
  version : Option Nat
  versionType : Option String
  userVersion : Option Nat
  branch_id : Option String
  branch_level : Option Nat
deriving Repr, DecidableEq

/-- Setting a key in the plain-object map `lastAssistantVersions`
(later assignments to the same `turnIndex` overwrite). -/
def objSet (m : List (Nat × Nat)) (k v : Nat) : List (Nat × Nat) :=
  if m.any (fun p => p.1 = k) then m.map (fun p => if p.1 = k then (p.1, v) else p)
  else m ++ [(k, v)]

/-- Lookup in the plain-object map. -/
def objGet (m : List (Nat × Nat)) (k : Nat) : Option Nat :=
  (m.find? (fun p => p.1 = k)).map Prod.snd

/-- The first pass of `extractGeminiMultiBranchData`: for every turn with
a nonempty assistant version list, record the last version number under
the turn's index. -/
def buildLastAssistantVersions (conv : List GeminiTurn) : List (Nat × Nat) :=
  conv.foldl (fun acc turn =>
    match turn.assistant with
    | some side =>
        match side.versions with
        | some vs =>
            match vs.getLast? with
            | some lastV => objSet acc turn.turnIndex lastV.version
            | none => acc
        | none => acc
    | none => acc) []

/-- The parent uuid of a human version: the last assistant version of the
previous turn (defaulting to version 0), or the root sentinel on the
first turn. -/
def humanParentUuid (lav : List (Nat × Nat)) (turnIndex : Nat) : String :=
  if turnIndex > 0 then
    match objGet lav (turnIndex - 1) with
    | some pv => "assistant_" ++ natRepr (turnIndex - 1) ++ "_v" ++ natRepr pv
    | none => "assistant_" ++ natRepr (turnIndex - 1) ++ "_v0"
  else ROOT_UUID

/-- The main loop of `extractGeminiMultiBranchData`: per turn, one
message per human version (parent: previous turn's last assistant
version), then one message per assistant version (parent: the human
version recorded in its `userVersion` field, defaulting to 0).
`createMessage` of the missing `helpers.js` is modelled from the spec as
the plain record constructor. -/
def extractGeminiMultiBranchData (conv : List GeminiTurn) : List GeminiMessage :=
  let lav := buildLastAssistantVersions conv
  (conv.foldl (fun (acc : List GeminiMessage × Nat) turn =>
    let afterHuman : List GeminiMessage × Nat :=
      match turn.human with
      | some side =>
          match side.versions with
          | some vs =>
              vs.foldl (fun (a : List GeminiMessage × Nat) hv =>
                (a.1 ++ [{ index := a.2,
                           uuid := "human_" ++ natRepr turn.turnIndex ++ "_v" ++ natRepr hv.version,
                           parentUuid := humanParentUuid lav turn.turnIndex,
                           sender := "human", senderLabel := "人类",
                           raw_text := jsStrOr hv.text "",
                           version := some hv.version,
                           versionType := some (jsStrOr hv.type "normal"),
                           userVersion := none,
                           branch_id := none, branch_level := none }], a.2 + 1)) acc
          | none => acc
      | none => acc
    match turn.assistant with
    | some side =>
        match side.versions with
        | some vs =>
            vs.foldl (fun (a : List GeminiMessage × Nat) av =>
              let userVersion := av.userVersion.getD 0
              (a.1 ++ [{ index := a.2,
                         uuid := "assistant_" ++ natRepr turn.turnIndex ++ "_v" ++ natRepr av.version,
                         parentUuid := "human_" ++ natRepr turn.turnIndex ++ "_v" ++ natRepr userVersion,
                         sender := "assistant", senderLabel := "Gemini",
                         raw_text := jsStrOr av.text "",
                         version := some av.version,
                         versionType := some (jsStrOr av.type "normal"),
                         userVersion := some userVersion,
                         branch_id := none, branch_level := none }], a.2 + 1)) afterHuman
        | none => afterHuman
    | none => afterHuman) (([], 0) : List GeminiMessage × Nat)).1

/-- The `gemini_notebooklm` branch of `detectOtherBranches`: when any
message carries version info, version 0 of type `normal` is the main
branch at level 0 and every other version gets
`branch_v${version}_uv${userVersion}` at level `max version 1`;
otherwise every message defaults to the main branch. -/
def detectOtherBranches (messages : List GeminiMessage) : List GeminiMessage :=
  let hasVersionInfo := messages.any (fun m => m.version.isSome)
  if hasVersionInfo then
    messages.map (fun msg =>
      let version := msg.version.getD 0
      let versionType := jsStrOr msg.versionType "normal"
      if version = 0 ∧ versionType = "normal" then
        { msg with branch_id := some "main", branch_level := some 0 }
      else
        let userVersion := msg.userVersion.getD 0
        { msg with
            branch_id := some ("branch_v" ++ natRepr version ++ "_uv" ++ natRepr userVersion),
            branch_level := some (if version > 0 then version else 1) })
  else
    messages.map (fun msg => { msg with branch_id := some "main", branch_level := some 0 })

/-- User message shared by the two files of the dedup scenario. -/
def eHello : Entry := ⟨some "U", true, false, some "hello", none, none, some "t1"⟩

/-- First file's assistant reply of the dedup scenario. -/
def eA : Entry := ⟨some "B", false, false, some "a", none, none, some "t2"⟩

/-- Second file's assistant reply of the dedup scenario. -/
def eB : Entry := ⟨some "B", false, false, some "b", none, none, some "t3"⟩

/-- C1.  The claim is false: `visited` is a local of the
`generateChatHistory` method, not instance state, so the method leaves
the instance unchanged and a second call silently re-emits the first
call's full history (here a nonempty one) rather than an empty or
partial result. -/
theorem claim_C1_counterexample :
    (((JSONLMerger.init.addFile [eHello] 0).generateChatHistoryCall.2.generateChatHistoryCall).1 =
      (JSONLMerger.init.addFile [eHello] 0).generateChatHistoryCall.1) ∧
    (JSONLMerger.init.addFile [eHello] 0).generateChatHistoryCall.1 ≠ [] := by
  set_option maxRecDepth 10000 in decide

/-- C1 (amended).  A `generateChatHistory` call mutates only call-local
state, so it returns the instance unchanged and a second call with no
intervening `addFile` re-emits exactly the first call's result. -/
theorem claim_C1 (st : JSONLMerger) :
    (st.generateChatHistoryCall.2.generateChatHistoryCall).1 = st.generateChatHistoryCall.1 ∧
    st.generateChatHistoryCall.2 = st :=
  ⟨rfl, rfl⟩

/-- C2.  Merging `A = [m1, m2a]` and `B = [m1, m2b]` (with `m1`
fingerprint-identical in both files and all three fingerprints pairwise
distinct, non-system, single-variant) creates exactly one node for `m1`
and three nodes in total, and the history is `m1`, `m2a` (branch
`main`), `m2b` (branch `branch_1`), the latter two children of `m1`'s
emitted uuid `jsonl_main_0_0`. -/
theorem claim_C2 :
    (generateMessageFingerprint eHello ≠ generateMessageFingerprint eA ∧
      generateMessageFingerprint eHello ≠ generateMessageFingerprint eB ∧
      generateMessageFingerprint eA ≠ generateMessageFingerprint eB) ∧
    (((JSONLMerger.init.addFile [eHello, eA] 0).addFile [eHello, eB] 1).nodeMap.map
        Prod.fst).count (generateMessageFingerprint eHello) = 1 ∧
    ((JSONLMerger.init.addFile [eHello, eA] 0).addFile [eHello, eB] 1).nodeMap.length = 3 ∧
    (((JSONLMerger.init.addFile [eHello, eA] 0).addFile [eHello, eB] 1).generateChatHistory).map
        (fun m => (m.content, m.uuid, m.branch_id, m.parentUuid)) =
      [("hello", "jsonl_main_0_0", "main", some ""),
       ("a", "jsonl_main_1_0", "main", some "jsonl_main_0_0"),
       ("b", "jsonl_branch_1_2_0", "branch_1", some "jsonl_main_0_0")] := by
  set_option maxRecDepth 10000 in decide

/-- User question preceding the swipe message of the variant scenario. -/
def eQ : Entry := ⟨some "U", true, false, some "q", none, none, none⟩

/-- Non-user entry with three reply variants, variant 1 selected. -/
def eSw : Entry := ⟨some "B", false, false, none, some ["x", "y", "z"], some 1, none⟩

/-- The node following the swipe entry in the source sequence. -/
def eNext : Entry := ⟨some "U", true, false, some "next", none, none, none⟩

/-- C4.  The three variants of `eSw` are expanded into three sibling
messages sharing the parent `jsonl_main_0_0`, each tagged with its
variant info `{total: 3, isSelected, variantIndex}`; the first-listed
variant is the branch point; the selected (second-listed) variant's
fresh uuid `jsonl_branch_1_2_0` is the parent of the following node
`eNext`; and the non-selected variants' uuids parent no message. -/
theorem claim_C4 :
    ((JSONLMerger.init.addFile [eQ, eSw, eNext] 0).generateChatHistory).map
        (fun m => (m.content, m.uuid, m.parentUuid, m.swipe_info, m.is_branch_point)) =
      [("q", "jsonl_main_0_0", some "", none, false),
       ("x", "jsonl_main_1_0", some "jsonl_main_0_0", some ⟨3, false, 0⟩, true),
       ("y", "jsonl_branch_1_2_0", some "jsonl_main_0_0", some ⟨3, true, 1⟩, false),
       ("z", "jsonl_branch_2_3_0", some "jsonl_main_0_0", some ⟨3, false, 2⟩, false),
       ("next", "jsonl_main_4_0", some "jsonl_branch_1_2_0", none, false)] ∧
    (∀ m ∈ (JSONLMerger.init.addFile [eQ, eSw, eNext] 0).generateChatHistory,
      m.parentUuid ≠ some "jsonl_main_1_0" ∧ m.parentUuid ≠ some "jsonl_branch_2_3_0") := by
  set_option maxRecDepth 10000 in decide

/-- Root of the first file of the fork counterexample. -/
def eR : Entry := ⟨some "r", false, false, some "r", none, none, none⟩

/-- Shared child of the fork counterexample. -/
def eC : Entry := ⟨some "c", false, false, some "c", none, none, none⟩

/-- Forking parent of the fork counterexample. -/
def eP : Entry := ⟨some "p", false, false, some "p", none, none, none⟩

/-- Second child of the forking parent. -/
def eD : Entry := ⟨some "d", false, false, some "d", none, none, none⟩

/-- C3.  The claim fails: merging `[r, c]`, `[p, c]`, `[p, d]` makes `p`
an emitted parent with two children `c` and `d`, emitted on branch
`branch_1` at level 1, yet no emitted child of `p` continues `branch_1`
at level 1 — `c` was already visited from root `r` and keeps `main`/0,
so `d` (fresh `branch_2`, level 2) is the only child taking a new id. -/
theorem claim_C3_counterexample :
    ((mapGet (((JSONLMerger.init.addFile [eR, eC] 0).addFile [eP, eC] 1).addFile
          [eP, eD] 2).nodeMap (generateMessageFingerprint eP)).map
        (fun n => n.children) =
      some [generateMessageFingerprint eC, generateMessageFingerprint eD]) ∧
    ((((JSONLMerger.init.addFile [eR, eC] 0).addFile [eP, eC] 1).addFile
          [eP, eD] 2).generateChatHistory).map
        (fun m => (m.content, m.branch_id, m.branch_level, m.is_branch_point)) =
      [("r", "main", 0, false), ("c", "main", 0, false),
       ("p", "branch_1", 1, true), ("d", "branch_2", 2, false)] ∧
    ¬ ∃ m ∈ (((JSONLMerger.init.addFile [eR, eC] 0).addFile [eP, eC] 1).addFile
          [eP, eD] 2).generateChatHistory,
        (m.content = "c" ∨ m.content = "d") ∧ m.branch_id = "branch_1" ∧ m.branch_level = 1 := by
  set_option maxRecDepth 10000 in decide

/-- The single turn of the Gemini multi-branch scenario: human version 0,
assistant version 0 of type normal, assistant version 1 of type retry
answering human version 0. -/
def c7turn : GeminiTurn :=
  ⟨0, some ⟨some [⟨0, some "hi", none, none⟩]⟩,
    some ⟨some [⟨0, some "a0", some "normal", none⟩, ⟨1, some "a1", some "retry", some 0⟩]⟩⟩

/-- C7.  Extracting the Gemini multi-branch turn and detecting branches
assigns assistant version 0 the branch `main` at level 0, assistant
version 1 the branch `branch_v1_uv0` (distinct from `main`) at level
1 ≥ 1, and gives both assistants the parent uuid `human_0_v0`, the human
version 0 message's uuid. -/
theorem claim_C7 :
    (detectOtherBranches (extractGeminiMultiBranchData [c7turn])).map
        (fun m => (m.uuid, m.parentUuid, m.branch_id, m.branch_level)) =
      [("human_0_v0", ROOT_UUID, some "main", some 0),
       ("assistant_0_v0", "human_0_v0", some "main", some 0),
       ("assistant_0_v1", "human_0_v0", some "branch_v1_uv0", some 1)] ∧
    ("branch_v1_uv0" : String) ≠ "main" ∧ (1 : Nat) ≥ 1 := by
  set_option maxRecDepth 10000 in decide

/-- C9.  `generateMessageFingerprint` is total (a Lean function), and an
entry with no `mes` field and a missing or empty variant list hashes the
empty string: its fingerprint is still the full `sender|isUser|hash`
string, with the hash of `""`. -/
theorem claim_C9 (e : Entry) (h1 : e.mes = none)
    (h2 : e.swipes = none ∨ e.swipes = some []) :
    entryContent e = "" ∧
    generateMessageFingerprint e =
      jsStrOr e.name "" ++ "|" ++ (if e.is_user then "true" else "false") ++ "|" ++
        simpleHash "" := by
  have hc : entryContent e = "" := by
    rcases h2 with h2 | h2 <;> simp [entryContent, h1, h2, jsStrOr]
  exact ⟨hc, by simp [generateMessageFingerprint, hc]⟩

/-- C9 witness: a concrete entry with no content and no variants. -/
theorem claim_C9_witness :
    (Entry.mk (some "N") false false none none none none).mes = none ∧
    ((Entry.mk (some "N") false false none none none none).swipes = none ∨
      (Entry.mk (some "N") false false none none none none).swipes = some []) ∧
    (entryContent (Entry.mk (some "N") false false none none none none) = "" ∧
      generateMessageFingerprint (Entry.mk (some "N") false false none none none none) =
        jsStrOr (some "N") "" ++ "|" ++ "false" ++ "|" ++ simpleHash "") :=
  ⟨rfl, Or.inl rfl, claim_C9 _ rfl (Or.inl rfl)⟩

/-- The fingerprint keys of the node map, in insertion order. -/
def JSONLMerger.nodeKeys (st : JSONLMerger) : List String := st.nodeMap.map Prod.fst

lemma mapHas_iff {m : List (String × MessageNode)} {k : String} :
    mapHas m k = true ↔ k ∈ m.map Prod.fst := by
  simp only [mapHas, List.any_eq_true, List.mem_map, decide_eq_true_eq]

lemma updateNode_keys (m : List (String × MessageNode)) (k : String)
    (f : MessageNode → MessageNode) :
    (updateNode m k f).map Prod.fst = m.map Prod.fst := by
  simp only [updateNode, List.map_map]
  apply List.map_congr_left
  intro p _
  by_cases h : p.1 = k <;> simp [h]

lemma addFileStep_keys (i : Nat) (st : JSONLMerger) (prev : Option String) (e : Entry) :
    ∃ t, (addFileStep i st prev e).1.nodeKeys = st.nodeKeys ++ t := by
  by_cases hs : e.is_system = true
  · exact ⟨[], by simp [addFileStep, hs, JSONLMerger.nodeKeys]⟩
  · by_cases hm : mapHas st.nodeMap (generateMessageFingerprint e) = true
    · refine ⟨[], ?_⟩
      cases prev with
      | none => simp [addFileStep, hs, hm, JSONLMerger.nodeKeys, updateNode_keys]
      | some pfp =>
          simp only [addFileStep, hs, hm, if_true, if_false, Bool.false_eq_true,
            ite_false, ite_true]
          split <;> simp [JSONLMerger.nodeKeys, updateNode_keys]
    · refine ⟨[generateMessageFingerprint e], ?_⟩
      cases prev with
      | none => simp [addFileStep, hs, hm, JSONLMerger.nodeKeys, updateNode_keys]
      | some pfp =>
          simp only [addFileStep, hs, hm, if_true, if_false, Bool.false_eq_true,
            ite_false, ite_true]
          split <;> simp [JSONLMerger.nodeKeys, updateNode_keys]

lemma addFileStep_mem (i : Nat) (st : JSONLMerger) (prev : Option String) (e : Entry)
    (hs : e.is_system = false) :
    generateMessageFingerprint e ∈ (addFileStep i st prev e).1.nodeKeys := by
  have hs' : ¬ (e.is_system = true) := by simp [hs]
  by_cases hm : mapHas st.nodeMap (generateMessageFingerprint e) = true
  · have hmem := mapHas_iff.mp hm
    cases prev with
    | none => simpa [addFileStep, hs', hm, JSONLMerger.nodeKeys, updateNode_keys] using hmem
    | some pfp =>
        simp only [addFileStep, hs', hm, if_true, if_false, Bool.false_eq_true,
          ite_false, ite_true]
        split <;> simpa [JSONLMerger.nodeKeys, updateNode_keys] using hmem
  · cases prev with
    | none => simp [addFileStep, hs', hm, JSONLMerger.nodeKeys, updateNode_keys]
    | some pfp =>
        simp only [addFileStep, hs', hm, if_true, if_false, Bool.false_eq_true,
          ite_false, ite_true]
        split <;> simp [JSONLMerger.nodeKeys, updateNode_keys]

lemma addFileStep_keys_eq (i : Nat) (st : JSONLMerger) (prev : Option String) (e : Entry)
    (h : e.is_system = true ∨ generateMessageFingerprint e ∈ st.nodeKeys) :
    (addFileStep i st prev e).1.nodeKeys = st.nodeKeys := by
  rcases h with hs | hmem
  · simp [addFileStep, hs, JSONLMerger.nodeKeys]
  · have hm : mapHas st.nodeMap (generateMessageFingerprint e) = true :=
      mapHas_iff.mpr hmem
    by_cases hs : e.is_system = true
    · simp [addFileStep, hs, JSONLMerger.nodeKeys]
    · cases prev with
      | none => simp [addFileStep, hs, hm, JSONLMerger.nodeKeys, updateNode_keys]
      | some pfp =>
          simp only [addFileStep, hs, hm, if_true, if_false, Bool.false_eq_true,
            ite_false, ite_true]
          split <;> simp [JSONLMerger.nodeKeys, updateNode_keys]

lemma addFileFold_keys (i : Nat) (msgs : List Entry) :
    ∀ acc : JSONLMerger × Option String,
    ∃ t, (msgs.foldl (fun acc e => addFileStep i acc.1 acc.2 e) acc).1.nodeKeys =
      acc.1.nodeKeys ++ t := by
  induction msgs with
  | nil => exact fun acc => ⟨[], by simp⟩
  | cons e rest ih =>
      intro acc
      obtain ⟨t1, h1⟩ := addFileStep_keys i acc.1 acc.2 e
      obtain ⟨t2, h2⟩ := ih (addFileStep i acc.1 acc.2 e)
      exact ⟨t1 ++ t2, by simp [h2, h1]⟩

lemma addFileFold_mem (i : Nat) (msgs : List Entry) :
    ∀ acc : JSONLMerger × Option String, ∀ e ∈ msgs, e.is_system = false →
    generateMessageFingerprint e ∈
      (msgs.foldl (fun acc e => addFileStep i acc.1 acc.2 e) acc).1.nodeKeys := by
  induction msgs with
  | nil => intro acc e he; exact absurd he (List.not_mem_nil e)
  | cons e0 rest ih =>
      intro acc e he hs
      rcases List.mem_cons.mp he with he | he
      · subst he
        obtain ⟨t, ht⟩ := addFileFold_keys i rest (addFileStep i acc.1 acc.2 e)
        have := addFileStep_mem i acc.1 acc.2 e hs
        simp only [List.foldl_cons, ht]
        exact List.mem_append_left _ this
      · exact ih (addFileStep i acc.1 acc.2 e0) e he hs

lemma addFileFold_keys_eq (i : Nat) (msgs : List Entry) :
    ∀ acc : JSONLMerger × Option String,
    (∀ e ∈ msgs, e.is_system = false → generateMessageFingerprint e ∈ acc.1.nodeKeys) →
    (msgs.foldl (fun acc e => addFileStep i acc.1 acc.2 e) acc).1.nodeKeys =
      acc.1.nodeKeys := by
  induction msgs with
  | nil => intro acc _; rfl
  | cons e0 rest ih =>
      intro acc hmem
      have h0 : (addFileStep i acc.1 acc.2 e0).1.nodeKeys = acc.1.nodeKeys := by
        by_cases hs : e0.is_system = true
        · exact addFileStep_keys_eq i acc.1 acc.2 e0 (Or.inl hs)
        · refine addFileStep_keys_eq i acc.1 acc.2 e0 (Or.inr ?_)
          exact hmem e0 (List.mem_cons_self e0 rest) (by simpa using hs)
      have := ih (addFileStep i acc.1 acc.2 e0)
        (fun e he hs => h0 ▸ hmem e (List.mem_cons_of_mem e0 he) hs)
      simpa [h0] using this

/-- An entry with its volatile timestamp removed: the second file of the
idempotent-dedup scenario agrees with the first up to `send_date`. -/
def clearDate (e : Entry) : Entry := { e with send_date := none }

/-- C6.  Adding a file `F` of non-system entries and then a second copy
that is identical except for each entry's `send_date` leaves the node
map's fingerprint keys (hence the node count) exactly as after adding
`F` once: the fingerprint ignores the timestamp. -/
theorem claim_C6 (F F2 : List Entry)
    (hsys : ∀ e ∈ F, e.is_system = false)
    (hsame : F2.map clearDate = F.map clearDate) :
    ((JSONLMerger.init.addFile F 0).addFile F2 1).nodeKeys =
      (JSONLMerger.init.addFile F 0).nodeKeys := by
  show ((F2.foldl (fun acc e => addFileStep 1 acc.1 acc.2 e)
      ((JSONLMerger.init.addFile F 0), none)).1).nodeKeys = _
  apply addFileFold_keys_eq
  intro e2 he2 _
  have hmm : clearDate e2 ∈ F.map clearDate := by
    rw [← hsame]; exact List.mem_map_of_mem clearDate he2
  obtain ⟨e1, he1, hcd⟩ := List.mem_map.mp hmm
  have hfp0 : generateMessageFingerprint (clearDate e1) =
      generateMessageFingerprint (clearDate e2) := congrArg generateMessageFingerprint hcd
  have hfp : generateMessageFingerprint e1 = generateMessageFingerprint e2 := hfp0
  have h1 : generateMessageFingerprint e1 ∈ (JSONLMerger.init.addFile F 0).nodeKeys :=
    addFileFold_mem 0 F (JSONLMerger.init, none) e1 he1 (hsys e1 he1)
  exact hfp ▸ h1

/-- C6 witness: one entry, re-added with a different timestamp. -/
theorem claim_C6_witness :
    (∀ e ∈ [eHello], e.is_system = false) ∧
    ([⟨some "U", true, false, some "hello", none, none, some "zz"⟩] :
        List Entry).map clearDate = [eHello].map clearDate ∧
    ((JSONLMerger.init.addFile [eHello] 0).addFile
        [⟨some "U", true, false, some "hello", none, none, some "zz"⟩] 1).nodeKeys =
      (JSONLMerger.init.addFile [eHello] 0).nodeKeys := by
  refine ⟨by decide, by decide, claim_C6 _ _ (by decide) (by decide)⟩

lemma digitsRevGo_eq_digits {b : Nat} (hb : 1 < b) :
    ∀ fuel n, n ≤ fuel → digitsRevGo b fuel n = Nat.digits b n := by
  intro fuel
  induction fuel with
  | zero =>
      intro n hn
      have h0 : n = 0 := Nat.le_zero.mp hn
      simp [digitsRevGo, h0]
  | succ f ih =>
      intro n hn
      by_cases h0 : n = 0
      · simp [digitsRevGo, h0]
      · rw [digitsRevGo, if_neg h0, Nat.digits_def' hb (Nat.pos_of_ne_zero h0), ih]
        exact Nat.le_of_lt_succ
          (lt_of_lt_of_le (Nat.div_lt_self (Nat.pos_of_ne_zero h0) hb) hn)

lemma digitsRev_eq_digits {b : Nat} (hb : 1 < b) (n : Nat) :
    digitsRev b n = Nat.digits b n :=
  digitsRevGo_eq_digits hb n n le_rfl

lemma digitChar_inj_lt : ∀ d1, d1 < 10 → ∀ d2, d2 < 10 →
    digitChar d1 = digitChar d2 → d1 = d2 := by decide

lemma digitChar_ne_underscore : ∀ d, d < 10 → digitChar d ≠ '_' := by decide

lemma map_digitChar_inj : ∀ l1 l2 : List Nat, (∀ d ∈ l1, d < 10) → (∀ d ∈ l2, d < 10) →
    l1.map digitChar = l2.map digitChar → l1 = l2 := by
  intro l1
  induction l1 with
  | nil =>
      intro l2 _ _ h
      cases l2 with
      | nil => rfl
      | cons d l => simp at h
  | cons d l ih =>
      intro l2 h1 h2 h
      cases l2 with
      | nil => simp at h
      | cons d2 l2' =>
          simp only [List.map_cons, List.cons.injEq] at h
          have hd := digitChar_inj_lt d (h1 d (by simp)) d2 (h2 d2 (by simp)) h.1
          have ht := ih l2' (fun x hx => h1 x (by simp [hx]))
            (fun x hx => h2 x (by simp [hx])) h.2
          rw [hd, ht]

lemma natRepr_eq_of_ne_zero {n : Nat} (h : n ≠ 0) :
    natRepr n = String.mk (((Nat.digits 10 n).reverse).map digitChar) := by
  rw [natRepr, if_neg h, digitsRev_eq_digits (by norm_num)]

lemma digits_ten_lt (n : Nat) : ∀ d ∈ (Nat.digits 10 n).reverse, d < 10 := by
  intro d hd
  exact Nat.digits_lt_base (by norm_num) (List.mem_reverse.mp hd)

lemma natRepr_ne_zero_of_ne_zero {n : Nat} (h : n ≠ 0) : natRepr n ≠ "0" := by
  rw [natRepr_eq_of_ne_zero h]
  intro hcon
  have hdata := congrArg String.data hcon
  have h0 : ("0" : String).data = [(0 : Nat)].map digitChar := by decide
  have hlist : ((Nat.digits 10 n).reverse).map digitChar = [(0 : Nat)].map digitChar := by
    simpa [h0] using hdata
  have hrev : (Nat.digits 10 n).reverse = [0] :=
    map_digitChar_inj _ _ (digits_ten_lt n) (by simp) hlist
  have hdig : Nat.digits 10 n = [0] := by
    have := congrArg List.reverse hrev
    simpa using this
  have hzero : n = 0 := by
    have hof := Nat.ofDigits_digits 10 n
    rw [hdig] at hof
    simpa [Nat.ofDigits] using hof.symm
  exact h hzero

lemma natRepr_inj : ∀ {m n : Nat}, natRepr m = natRepr n → m = n := by
  intro m n h
  by_cases hm : m = 0
  · by_cases hn : n = 0
    · rw [hm, hn]
    · subst hm
      exact absurd h.symm (by simpa [natRepr] using natRepr_ne_zero_of_ne_zero hn)
  · by_cases hn : n = 0
    · subst hn
      exact absurd h (by simpa [natRepr] using natRepr_ne_zero_of_ne_zero hm)
    · rw [natRepr_eq_of_ne_zero hm, natRepr_eq_of_ne_zero hn] at h
      have hdata := congrArg String.data h
      have hrev := map_digitChar_inj _ _ (digits_ten_lt m) (digits_ten_lt n) hdata
      have hdig : Nat.digits 10 m = Nat.digits 10 n := List.reverse_injective hrev
      calc m = Nat.ofDigits 10 (Nat.digits 10 m) := (Nat.ofDigits_digits 10 m).symm
      _ = Nat.ofDigits 10 (Nat.digits 10 n) := by rw [hdig]
      _ = n := Nat.ofDigits_digits 10 n

lemma natRepr_no_underscore (n : Nat) : '_' ∉ (natRepr n).data := by
  by_cases h : n = 0
  · subst h; decide
  · rw [natRepr_eq_of_ne_zero h]
    intro hmem
    have : ∃ d ∈ (Nat.digits 10 n).reverse, digitChar d = '_' := by
      simpa [List.mem_map] using hmem
    obtain ⟨d, hd, hchar⟩ := this
    exact digitChar_ne_underscore d (digits_ten_lt n d hd) hchar

lemma append_sep_inj : ∀ (a c : List Char) {b d : List Char},
    '_' ∉ a → '_' ∉ c → a ++ '_' :: b = c ++ '_' :: d → a = c ∧ b = d := by
  intro a
  induction a with
  | nil =>
      intro c b d ha hc h
      cases c with
      | nil =>
          injection h with h1 h2
          exact ⟨rfl, h2⟩
      | cons y c' =>
          injection h with h1 h2
          exact absurd (by rw [← h1]; exact List.mem_cons_self _ _) hc
  | cons x a' ih =>
      intro c b d ha hc h
      cases c with
      | nil =>
          injection h with h1 h2
          exact absurd (by rw [h1]; exact List.mem_cons_self _ _) ha
      | cons y c' =>
          injection h with h1 h2
          have hrec := ih c' (fun hm => ha (List.mem_cons_of_mem _ hm))
            (fun hm => hc (List.mem_cons_of_mem _ hm)) h2
          exact ⟨by rw [h1, hrec.1], hrec.2⟩

/-- A branch id generated by the linearizer: `"main"` or `"branch_N"`. -/
def ValidBid (s : String) : Prop := s = "main" ∨ ∃ k, s = "branch_" ++ natRepr k

lemma mkUuid_data (b : String) (i : Nat) :
    (mkUuid b i).data = ("jsonl_".data ++ (b.data ++ '_' :: ((natRepr i).data ++ '_' :: ['0']))) := by
  simp [mkUuid, String.data_append]

lemma mkUuid_inj {b1 b2 : String} {i j : Nat} (h1 : ValidBid b1) (h2 : ValidBid b2)
    (h : mkUuid b1 i = mkUuid b2 j) : i = j := by
  have hd := congrArg String.data h
  rw [mkUuid_data, mkUuid_data] at hd
  have hd' := List.append_cancel_left hd
  have finish : (natRepr i).data ++ '_' :: ['0'] = (natRepr j).data ++ '_' :: ['0'] → i = j := by
    intro hfin
    have := (append_sep_inj _ _ (natRepr_no_underscore i) (natRepr_no_underscore j) hfin).1
    exact natRepr_inj (String.ext this)
  have hmaind : ("main" : String).data = ['m', 'a', 'i', 'n'] := rfl
  have hbd : ("branch_" : String).data = ['b', 'r', 'a', 'n', 'c', 'h', '_'] := rfl
  rcases h1 with h1 | ⟨k1, h1⟩ <;> rcases h2 with h2 | ⟨k2, h2⟩ <;> subst h1 <;> subst h2
  · have hm : ¬ ('_' ∈ ("main" : String).data) := by decide
    exact finish (append_sep_inj _ _ hm hm hd').2
  · rw [String.data_append, hmaind, hbd] at hd'
    simp only [List.cons_append, List.append_assoc, List.cons.injEq] at hd'
    exact absurd hd'.1 (by decide)
  · rw [String.data_append, hmaind, hbd] at hd'
    simp only [List.cons_append, List.append_assoc, List.cons.injEq] at hd'
    exact absurd hd'.1 (by decide)
  · rw [String.data_append, String.data_append, hbd] at hd'
    simp only [List.cons_append, List.append_assoc, List.cons.injEq, true_and] at hd'
    exact finish (append_sep_inj _ _ (natRepr_no_underscore k1)
      (natRepr_no_underscore k2) hd').2

/-- Invariant of an emitted history prefix: all indices below the running
counter, each message's branch id of the generated shape and its uuid
determined by branch id and index, and indices strictly increasing in
emission order. -/
def GoodHist (hist : List NormalizedMessage) (bound : Nat) : Prop :=
  (∀ m ∈ hist, m.index < bound ∧ ValidBid m.branch_id ∧
    m.uuid = mkUuid m.branch_id m.index) ∧
  (hist.map (fun m => m.index)).Pairwise (· < ·)

/-- The invariant on a traversal state. -/
def GoodTrav (ts : TravState) : Prop := GoodHist ts.chatHistory ts.msgIndex

lemma GoodHist.append {hist : List NormalizedMessage} {bound : Nat}
    (h : GoodHist hist bound) {m : NormalizedMessage}
    (hidx : m.index = bound) (hbid : ValidBid m.branch_id)
    (huuid : m.uuid = mkUuid m.branch_id m.index) :
    GoodHist (hist ++ [m]) (bound + 1) := by
  constructor
  · intro x hx
    rcases List.mem_append.mp hx with hx | hx
    · obtain ⟨h1, h2, h3⟩ := h.1 x hx
      exact ⟨Nat.lt_succ_of_lt h1, h2, h3⟩
    · have hxm : x = m := by simpa using hx
      subst hxm
      exact ⟨by omega, hbid, huuid⟩
  · rw [List.map_append, List.pairwise_append]
    refine ⟨h.2, by simp, ?_⟩
    intro a ha b hb
    have hbm : b = m.index := by simpa using hb
    obtain ⟨x, hx, hxa⟩ := List.mem_map.mp ha
    have := (h.1 x hx).1
    omega

lemma goodTrav_emit {ts : TravState} (h : GoodTrav ts) (m : NormalizedMessage)
    (hidx : m.index = ts.msgIndex) (hbid : ValidBid m.branch_id)
    (huuid : m.uuid = mkUuid m.branch_id m.index)
    (bc : Nat) (vis : List String) (fu : List (String × String)) :
    GoodTrav ⟨ts.chatHistory ++ [m], ts.msgIndex + 1, bc, vis, fu⟩ :=
  GoodHist.append h hidx hbid huuid

lemma validBid_fresh (k : Nat) : ValidBid ("branch_" ++ natRepr k) := Or.inr ⟨k, rfl⟩

lemma swipeLoop_good (fp : String) (pu : Option String) (nm sl tsp : String)
    (iu gbp : Bool) (tot sel : Nat) (bid : String) (lvl : Nat) (hbid : ValidBid bid) :
    ∀ (swipes : List String) (sIdx : Nat) (ts : TravState) (cur : Option String),
    GoodTrav ts →
    GoodTrav (swipeLoop fp pu nm sl tsp iu gbp tot sel bid lvl swipes sIdx ts cur).1 := by
  intro swipes
  induction swipes with
  | nil => intro sIdx ts cur h; exact h
  | cons s rest ih =>
      intro sIdx ts cur h
      simp only [swipeLoop]
      apply ih
      split_ifs <;>
        first
          | exact goodTrav_emit h _ rfl (validBid_fresh _) rfl _ _ _
          | exact goodTrav_emit h _ rfl hbid rfl _ _ _

lemma childLoopF_good
    (tr : String → Option String → String → Nat → TravState → TravState × Option String)
    (htr : ∀ fp pu bid lvl ts, GoodTrav ts → ValidBid bid → GoodTrav (tr fp pu bid lvl ts).1)
    (total : Nat) (bid : String) (lvl : Nat) (cur : Option String) (hbid : ValidBid bid) :
    ∀ (children : List String) (cIdx : Nat) (ts : TravState), GoodTrav ts →
    GoodTrav (childLoopF tr total bid lvl cur children cIdx ts) := by
  intro children
  induction children with
  | nil => intro cIdx ts h; exact h
  | cons c rest ih =>
      intro cIdx ts h
      simp only [childLoopF]
      apply ih
      split_ifs with hc
      · exact htr _ _ _ _ _ h (validBid_fresh _)
      · exact htr _ _ _ _ _ h hbid

lemma traverse_good : ∀ (fuel : Nat) (st : JSONLMerger) (fp : String) (pu : Option String)
    (bid : String) (lvl : Nat) (ts : TravState), GoodTrav ts → ValidBid bid →
    GoodTrav (traverse st fuel fp pu bid lvl ts).1 := by
  intro fuel
  induction fuel with
  | zero => intro st fp pu bid lvl ts h _; exact h
  | succ f ih =>
      intro st fp pu bid lvl ts h hbid
      rw [traverse.eq_2]
      by_cases hv : fp ∈ ts.visited
      · rw [if_pos hv]
        exact h
      · rw [if_neg hv]
        cases hg : mapGet st.nodeMap fp with
        | none => simp only [hg]; exact h
        | some node =>
            simp only [hg]
            split
            · exact childLoopF_good _ (fun a b c d e hgd hb => ih st a b c d e hgd hb)
                _ _ _ _ hbid _ _ _
                (swipeLoop_good _ _ _ _ _ _ _ _ _ _ _ hbid _ _ _ _ h)
            · refine childLoopF_good _ (fun a b c d e hgd hb => ih st a b c d e hgd hb)
                _ _ _ _ hbid _ _ _ ?_
              split <;> exact goodTrav_emit h _ rfl hbid rfl _ _ _

lemma rootLoop_good (st : JSONLMerger) (fuel total : Nat) :
    ∀ (roots : List String) (rIdx : Nat) (ts : TravState), GoodTrav ts →
    GoodTrav (rootLoop st fuel total roots rIdx ts) := by
  intro roots
  induction roots with
  | nil => intro rIdx ts h; exact h
  | cons r rest ih =>
      intro rIdx ts h
      simp only [rootLoop]
      apply ih
      split_ifs with hc
      · exact traverse_good _ _ _ _ _ _ _ h (validBid_fresh _)
      · exact traverse_good _ _ _ _ _ _ _ h (Or.inl rfl)

/-- C8.  In every merge session (any merger state, hence any sequence of
`addFile` calls), the uuids of all messages emitted by
`generateChatHistory` — including expanded swipe siblings — are pairwise
distinct: every emission consumes a fresh `msgIndex` and the uuid
`jsonl_{branchId}_{msgIndex}_0` determines that index. -/
theorem claim_C8 (st : JSONLMerger) :
    ((st.generateChatHistory).map (fun m => m.uuid)).Nodup := by
  have hinit : GoodTrav TravState.init :=
    ⟨fun m hm => absurd hm (List.not_mem_nil m), List.Pairwise.nil⟩
  have hfinal := rootLoop_good st (st.nodeMap.length + 1) st.findTrueRoots.length
    st.findTrueRoots 0 TravState.init hinit
  obtain ⟨hmem, hsorted⟩ := hfinal
  have hidxnodup : (((rootLoop st (st.nodeMap.length + 1) st.findTrueRoots.length
      st.findTrueRoots 0 TravState.init).chatHistory).map (fun m => m.index)).Nodup :=
    hsorted.imp Nat.ne_of_lt
  have hhist : st.generateChatHistory =
      (rootLoop st (st.nodeMap.length + 1) st.findTrueRoots.length
        st.findTrueRoots 0 TravState.init).chatHistory := rfl
  rw [hhist]
  refine List.Nodup.map_on ?_ (List.Nodup.of_map _ hidxnodup)
  intro x hx y hy hxy
  obtain ⟨-, hbx, hux⟩ := hmem x hx
  obtain ⟨-, hby, huy⟩ := hmem y hy
  have hidx : x.index = y.index := mkUuid_inj hbx hby (by rw [← hux, ← huy, hxy])
  exact List.inj_on_of_nodup_map hidxnodup hx hy hidx

/-- Sequentially add a list of files with increasing file indices. -/
def addFilesFrom (st : JSONLMerger) : List (List Entry) → Nat → JSONLMerger
  | [], _ => st
  | f :: fs, i => addFilesFrom (st.addFile f i) fs (i + 1)

/-- A merge session: every file added, in order, to a fresh merger. -/
def runMerger (files : List (List Entry)) : JSONLMerger :=
  addFilesFrom JSONLMerger.init files 0

/-- Every parent fingerprint recorded in any node is a key of the node
map. -/
def ParentsClosed (st : JSONLMerger) : Prop :=
  ∀ p ∈ st.nodeMap, ∀ q ∈ p.2.parents, q ∈ st.nodeKeys

lemma setAdd_mem {α : Type} [DecidableEq α] {l : List α} {a q : α}
    (h : q ∈ setAdd l a) : q ∈ l ∨ q = a := by
  by_cases hm : a ∈ l
  · rw [setAdd, if_pos hm] at h
    exact Or.inl h
  · rw [setAdd, if_neg hm] at h
    rcases List.mem_append.mp h with h | h
    · exact Or.inl h
    · exact Or.inr (by simpa using h)

lemma mem_updateNode {m : List (String × MessageNode)} {k : String}
    {f : MessageNode → MessageNode} {p : String × MessageNode}
    (hp : p ∈ updateNode m k f) : ∃ p0 ∈ m, p = p0 ∨ p = (p0.1, f p0.2) := by
  obtain ⟨p0, hp0, hef⟩ := List.mem_map.mp hp
  by_cases h : p0.1 = k
  · exact ⟨p0, hp0, Or.inr (by rw [← hef]; simp [h])⟩
  · exact ⟨p0, hp0, Or.inl (by rw [← hef]; simp [h])⟩

lemma parents_link_gen (m0 : List (String × MessageNode)) (fp pfp : String) (i : Nat) :
    ∀ p ∈ updateNode (updateNode m0 fp
        (fun n => { n with fileIndices := setAdd n.fileIndices i })) fp
        (fun n => { n with parents := setAdd n.parents pfp }),
      ∀ q ∈ p.2.parents, (∃ p0 ∈ m0, q ∈ p0.2.parents) ∨ q = pfp := by
  intro p hp q hq
  obtain ⟨p2, hp2, hc2⟩ := mem_updateNode hp
  have hq2 : q ∈ p2.2.parents ∨ q = pfp := by
    rcases hc2 with h | h
    · rw [h] at hq; exact Or.inl hq
    · rw [h] at hq
      have hq' : q ∈ setAdd p2.2.parents pfp := hq
      exact setAdd_mem hq'
  rcases hq2 with hq2 | hq2
  · obtain ⟨p1, hp1, hc1⟩ := mem_updateNode hp2
    have hq1 : q ∈ p1.2.parents := by
      rcases hc1 with h | h <;> rw [h] at hq2 <;> simpa using hq2
    exact Or.inl ⟨p1, hp1, hq1⟩
  · exact Or.inr hq2

lemma parents_link_child (m0 : List (String × MessageNode)) (fp pfp : String) (i : Nat) :
    ∀ p ∈ updateNode (updateNode (updateNode m0 fp
        (fun n => { n with fileIndices := setAdd n.fileIndices i })) fp
        (fun n => { n with parents := setAdd n.parents pfp })) pfp
        (fun n => { n with children := setAdd n.children fp }),
      ∀ q ∈ p.2.parents, (∃ p0 ∈ m0, q ∈ p0.2.parents) ∨ q = pfp := by
  intro p hp q hq
  obtain ⟨p3, hp3, hc3⟩ := mem_updateNode hp
  have hq3 : q ∈ p3.2.parents := by
    rcases hc3 with h | h <;> rw [h] at hq <;> simpa using hq
  exact parents_link_gen m0 fp pfp i p3 hp3 q hq3

lemma resolve_new_node {st : JSONLMerger} {fp : String} {e : Entry} {q pfp : String}
    (h : (∃ p0 ∈ st.nodeMap ++ [(fp, MessageNode.new fp e)], q ∈ p0.2.parents) ∨ q = pfp) :
    (∃ p0 ∈ st.nodeMap, q ∈ p0.2.parents) ∨ q = pfp := by
  rcases h with ⟨p0, hp0, hq0⟩ | h
  · rcases List.mem_append.mp hp0 with h0 | h0
    · exact Or.inl ⟨p0, h0, hq0⟩
    · have : p0 = (fp, MessageNode.new fp e) := by simpa using h0
      rw [this] at hq0
      simp [MessageNode.new] at hq0
  · exact Or.inr h

lemma addFileStep_parents (i : Nat) (st : JSONLMerger) (prev : Option String) (e : Entry) :
    ∀ p ∈ (addFileStep i st prev e).1.nodeMap, ∀ q ∈ p.2.parents,
      (∃ p0 ∈ st.nodeMap, q ∈ p0.2.parents) ∨ (∃ pfp, prev = some pfp ∧ q = pfp) := by
  intro p hp q hq
  by_cases hs : e.is_system = true
  · simp only [addFileStep, hs, if_true, ite_true] at hp
    exact Or.inl ⟨p, hp, hq⟩
  · cases prev with
    | none =>
        simp only [addFileStep, hs, if_false, Bool.false_eq_true, ite_false] at hp
        obtain ⟨p2, hp2, hc2⟩ := mem_updateNode hp
        have hq2 : q ∈ p2.2.parents := by
          rcases hc2 with h | h <;> rw [h] at hq <;> simpa using hq
        obtain ⟨p1, hp1, hc1⟩ := mem_updateNode hp2
        have hq1 : q ∈ p1.2.parents := by
          rcases hc1 with h | h <;> rw [h] at hq2 <;> simpa using hq2
        split at hp1
        · exact Or.inl ⟨p1, hp1, hq1⟩
        · rcases List.mem_append.mp hp1 with h0 | h0
          · exact Or.inl ⟨p1, h0, hq1⟩
          · have hnew : p1 = (generateMessageFingerprint e,
                MessageNode.new (generateMessageFingerprint e) e) := by simpa using h0
            rw [hnew] at hq1
            simp [MessageNode.new] at hq1
    | some pfp =>
        simp only [addFileStep, hs, if_false, Bool.false_eq_true, ite_false] at hp
        have hres : (∃ p0 ∈ st.nodeMap, q ∈ p0.2.parents) ∨ q = pfp := by
          split at hp <;> split at hp <;>
            first
              | exact parents_link_gen st.nodeMap _ pfp i p hp q hq
              | exact parents_link_child st.nodeMap _ pfp i p hp q hq
              | exact resolve_new_node (parents_link_gen _ _ pfp i p hp q hq)
              | exact resolve_new_node (parents_link_child _ _ pfp i p hp q hq)
        rcases hres with h | h
        · exact Or.inl h
        · exact Or.inr ⟨pfp, rfl, h⟩

lemma addFileStep_snd_keys (i : Nat) (acc : JSONLMerger × Option String) (e : Entry) :
    ∀ pfp, (addFileStep i acc.1 acc.2 e).2 = some pfp →
      pfp ∈ (addFileStep i acc.1 acc.2 e).1.nodeKeys ∨
        (acc.2 = some pfp ∧ (addFileStep i acc.1 acc.2 e).1 = acc.1) := by
  intro pfp hpf
  by_cases hs : e.is_system = true
  · have h2 : (addFileStep i acc.1 acc.2 e).2 = acc.2 := by simp [addFileStep, hs]
    have h1 : (addFileStep i acc.1 acc.2 e).1 = acc.1 := by simp [addFileStep, hs]
    exact Or.inr ⟨by rw [← h2, hpf], h1⟩
  · have h2 : (addFileStep i acc.1 acc.2 e).2 = some (generateMessageFingerprint e) := by
      cases hacc : acc.2 <;> simp [addFileStep, hs, hacc]
    rw [h2] at hpf
    have hfp : pfp = generateMessageFingerprint e := by
      injection hpf with h; exact h.symm
    rw [hfp]
    exact Or.inl (addFileStep_mem i acc.1 acc.2 e (by simpa using hs))

lemma addFileFold_parentsClosed (i : Nat) (msgs : List Entry) :
    ∀ acc : JSONLMerger × Option String, ParentsClosed acc.1 →
    (∀ pfp, acc.2 = some pfp → pfp ∈ acc.1.nodeKeys) →
    ParentsClosed (msgs.foldl (fun acc e => addFileStep i acc.1 acc.2 e) acc).1 := by
  induction msgs with
  | nil => intro acc h _; exact h
  | cons e rest ih =>
      intro acc hpc hprev
      obtain ⟨t, ht⟩ := addFileStep_keys i acc.1 acc.2 e
      refine ih _ ?_ ?_
      · intro p hp q hq
        rcases addFileStep_parents i acc.1 acc.2 e p hp q hq with ⟨p0, hp0, hq0⟩ |
          ⟨pfp, hpf, hqe⟩
        · exact ht ▸ List.mem_append_left _ (hpc p0 hp0 q hq0)
        · rw [hqe]
          exact ht ▸ List.mem_append_left _ (hprev pfp hpf)
      · intro pfp hpf
        rcases addFileStep_snd_keys i acc e pfp hpf with h | ⟨h2, h1⟩
        · exact h
        · rw [h1]
          exact hprev pfp h2

lemma addFile_parentsClosed (st : JSONLMerger) (msgs : List Entry) (i : Nat)
    (h : ParentsClosed st) : ParentsClosed (st.addFile msgs i) :=
  addFileFold_parentsClosed i msgs (st, none) h (fun pfp hp => by cases hp)

lemma addFilesFrom_parentsClosed : ∀ (fs : List (List Entry)) (st : JSONLMerger) (i : Nat),
    ParentsClosed st → ParentsClosed (addFilesFrom st fs i) := by
  intro fs
  induction fs with
  | nil => intro st i h; exact h
  | cons f rest ih =>
      intro st i h
      exact ih _ _ (addFile_parentsClosed st f i h)

lemma runMerger_parentsClosed (files : List (List Entry)) :
    ParentsClosed (runMerger files) :=
  addFilesFrom_parentsClosed files _ 0 (fun p hp => absurd hp (List.not_mem_nil p))

lemma findTrueRoots_filterAux (st : JSONLMerger) :
    ∀ l : List (String × MessageNode),
    (∀ p ∈ l, ∀ q ∈ p.2.parents, q ∈ st.nodeKeys) →
    l.filterMap (fun p => if p.2.parents.any (fun pfp => mapHas st.nodeMap pfp) then none
      else some p.1) = (l.filter (fun p => p.2.parents.isEmpty)).map Prod.fst := by
  intro l
  induction l with
  | nil => intro _; rfl
  | cons p rest ih =>
      intro h
      have hrest := ih (fun x hx => h x (List.mem_cons_of_mem p hx))
      cases hpar : p.2.parents with
      | nil =>
          simp only [List.filterMap_cons, List.filter_cons, hpar, List.any_nil,
            Bool.false_eq_true, ite_false, List.isEmpty_nil, ite_true, List.map_cons]
          rw [hrest]
      | cons q qs =>
          have hq : q ∈ st.nodeKeys :=
            h p (List.mem_cons_self p rest) q (by rw [hpar]; simp)
          have hhas : mapHas st.nodeMap q = true := mapHas_iff.mpr hq
          simp only [List.filterMap_cons, List.filter_cons, hpar, List.any_cons, hhas,
            Bool.true_or, ite_true, List.isEmpty_cons, Bool.false_eq_true, ite_false]
          exact hrest

/-- C10.  After any merge session, every fingerprint in any node's
parents set is itself a key of the node map, and `findTrueRoots` returns
exactly the (keys of the) nodes whose parents set is empty — so the
dangling-parent fallback (`hasValidParent` false despite nonempty
parents) is unreachable for states this implementation builds. -/
theorem claim_C10 (files : List (List Entry)) :
    (∀ p ∈ (runMerger files).nodeMap, ∀ q ∈ p.2.parents, q ∈ (runMerger files).nodeKeys) ∧
    (runMerger files).findTrueRoots =
      (((runMerger files).nodeMap.filter (fun p => p.2.parents.isEmpty)).map Prod.fst) := by
  have hpc := runMerger_parentsClosed files
  exact ⟨hpc, findTrueRoots_filterAux (runMerger files) _ hpc⟩

lemma mapGet_cons_ne {x : String × MessageNode} {rest : List (String × MessageNode)}
    {q : String} (h : ¬ x.1 = q) : mapGet (x :: rest) q = mapGet rest q := by
  unfold mapGet
  rw [List.find?_cons_of_neg]
  simpa using h

lemma mapGet_cons_eq {x : String × MessageNode} {rest : List (String × MessageNode)}
    {q : String} (h : x.1 = q) : mapGet (x :: rest) q = some x.2 := by
  unfold mapGet
  rw [List.find?_cons_of_pos]
  · rfl
  · simpa using h

lemma mapGet_updateNode (m : List (String × MessageNode)) (k : String)
    (f : MessageNode → MessageNode) (q : String) :
    mapGet (updateNode m k f) q =
      if q = k then (mapGet m q).map f else mapGet m q := by
  induction m with
  | nil => by_cases h : q = k <;> simp [mapGet, updateNode, h]
  | cons p rest ih =>
      by_cases hpk : p.1 = k
      · have h1 : updateNode (p :: rest) k f = (p.1, f p.2) :: updateNode rest k f := by
          simp [updateNode, hpk]
        by_cases hpq : p.1 = q
        · have hq : q = k := by rw [← hpq, hpk]
          rw [if_pos hq, h1, mapGet_cons_eq (x := (p.1, f p.2)) hpq, mapGet_cons_eq hpq]
          rfl
        · have hq : ¬ q = k := fun h => hpq (by rw [hpk, h])
          rw [if_neg hq, h1, mapGet_cons_ne (x := (p.1, f p.2)) hpq, mapGet_cons_ne hpq,
            ih, if_neg hq]
      · have h1 : updateNode (p :: rest) k f = p :: updateNode rest k f := by
          simp [updateNode, hpk]
        by_cases hpq : p.1 = q
        · have hq : ¬ q = k := fun h => hpk (by rw [hpq, h])
          rw [if_neg hq, h1, mapGet_cons_eq hpq, mapGet_cons_eq hpq]
        · rw [h1, mapGet_cons_ne hpq]
          by_cases hq : q = k
          · rw [if_pos hq, mapGet_cons_ne hpq, ih, if_pos hq]
          · rw [if_neg hq, mapGet_cons_ne hpq, ih, if_neg hq]

lemma mapGet_append (m l : List (String × MessageNode)) (q : String) :
    mapGet (m ++ l) q =
      match mapGet m q with
      | some n => some n
      | none => mapGet l q := by
  induction m with
  | nil => simp [mapGet]
  | cons p rest ih =>
      by_cases hpq : p.1 = q
      · rw [List.cons_append, mapGet_cons_eq hpq, mapGet_cons_eq hpq]
      · rw [List.cons_append, mapGet_cons_ne hpq, mapGet_cons_ne hpq, ih]

lemma mapGet_none_iff {m : List (String × MessageNode)} {q : String} :
    mapGet m q = none ↔ ¬ q ∈ m.map Prod.fst := by
  induction m with
  | nil => simp [mapGet]
  | cons x rest ih =>
      by_cases hxq : x.1 = q
      · rw [mapGet_cons_eq hxq]
        simp [List.map_cons, List.mem_cons, hxq]
      · have hqx : ¬ q = x.1 := fun h => hxq h.symm
        rw [mapGet_cons_ne hxq, ih]
        simp [List.map_cons, List.mem_cons, hqx]

lemma mapGet_some_of_mem_nodup {m : List (String × MessageNode)} {k : String}
    {n : MessageNode} (hnd : (m.map Prod.fst).Nodup) (hm : (k, n) ∈ m) :
    mapGet m k = some n := by
  induction m with
  | nil => simp at hm
  | cons p rest ih =>
      rcases List.mem_cons.mp hm with he | he
      · rw [← he]
        exact mapGet_cons_eq rfl
      · have hpk : ¬ p.1 = k := by
          intro hpk
          have : k ∈ rest.map Prod.fst := List.mem_map.mpr ⟨(k, n), he, rfl⟩
          rw [List.map_cons] at hnd
          exact (List.nodup_cons.mp hnd).1 (hpk ▸ this)
        rw [mapGet_cons_ne hpk]
        exact ih (List.nodup_cons.mp (by rw [List.map_cons] at hnd; exact hnd)).2 he

/-- The parents set currently recorded under a key (absent keys give
`none`). -/
def parentsAt (st : JSONLMerger) (k : String) : Option (List String) :=
  (mapGet st.nodeMap k).map (fun n => n.parents)

/-- Whether the node currently stored under a key has an empty parents
set (false for absent keys). -/
def emptyAtB (st : JSONLMerger) (k : String) : Bool :=
  ((parentsAt st k).map List.isEmpty).getD false

lemma mapGet_some_of_mapHas {m : List (String × MessageNode)} {k : String}
    (h : mapHas m k = true) : ∃ n, mapGet m k = some n := by
  cases hg : mapGet m k with
  | none => exact absurd (mapHas_iff.mp h) (mapGet_none_iff.mp hg)
  | some n => exact ⟨n, rfl⟩

lemma mapGet_none_of_not_mapHas {m : List (String × MessageNode)} {k : String}
    (h : ¬ mapHas m k = true) : mapGet m k = none :=
  mapGet_none_iff.mpr (fun hm => h (mapHas_iff.mpr hm))

lemma addFileStep_sys (i : Nat) (st : JSONLMerger) (prev : Option String) (e : Entry)
    (hs : e.is_system = true) : addFileStep i st prev e = (st, prev) := by
  simp [addFileStep, hs]

lemma addFileStep_rootFps_none (i : Nat) (st : JSONLMerger) (e : Entry)
    (hs : e.is_system = false) :
    (addFileStep i st none e).1.rootFingerprints =
      setAdd st.rootFingerprints (generateMessageFingerprint e) := by
  have hs' : ¬ (e.is_system = true) := by simp [hs]
  simp [addFileStep, hs']

lemma addFileStep_rootFps_some (i : Nat) (st : JSONLMerger) (pfp : String) (e : Entry)
    (hs : e.is_system = false) :
    (addFileStep i st (some pfp) e).1.rootFingerprints = st.rootFingerprints := by
  have hs' : ¬ (e.is_system = true) := by simp [hs]
  simp only [addFileStep, hs', if_false, Bool.false_eq_true, ite_false]

lemma mapGet_append_single_self (m : List (String × MessageNode)) (fp : String)
    (n : MessageNode) (h : mapGet m fp = none) : mapGet (m ++ [(fp, n)]) fp = some n := by
  rw [mapGet_append, h]
  exact mapGet_cons_eq rfl

lemma mapGet_append_single_other (m : List (String × MessageNode)) (fp k : String)
    (n : MessageNode) (h : ¬ fp = k) : mapGet (m ++ [(fp, n)]) k = mapGet m k := by
  rw [mapGet_append]
  cases hg : mapGet m k with
  | some x => rfl
  | none =>
      have hend : mapGet [(fp, n)] k = none := by
        rw [mapGet_cons_ne h]
        rfl
      exact hend

lemma parents_map_one (o : Option MessageNode) (f : MessageNode → MessageNode)
    (h : ∀ n, (f n).parents = n.parents) :
    (o.map f).map (fun n => n.parents) = o.map (fun n => n.parents) := by
  cases o <;> simp [h]

lemma addFileStep_parentsAt_none (i : Nat) (st : JSONLMerger) (e : Entry)
    (hs : e.is_system = false) (k : String) :
    parentsAt (addFileStep i st none e).1 k =
      if k = generateMessageFingerprint e then some ((parentsAt st k).getD [])
      else parentsAt st k := by
  have hs' : ¬ (e.is_system = true) := by simp [hs]
  simp only [addFileStep, hs', if_false, Bool.false_eq_true, ite_false]
  unfold parentsAt
  rw [mapGet_updateNode, mapGet_updateNode]
  by_cases hk : k = generateMessageFingerprint e
  · rw [if_pos hk, if_pos hk, if_pos hk, hk,
      parents_map_one _ (fun n => { n with isRoot := true }) (fun n => rfl),
      parents_map_one _ (fun n => { n with fileIndices := setAdd n.fileIndices i })
        (fun n => rfl)]
    by_cases hm : mapHas st.nodeMap (generateMessageFingerprint e) = true
    · rw [if_pos hm]
      obtain ⟨n, hn⟩ := mapGet_some_of_mapHas hm
      rw [hn]
      rfl
    · rw [if_neg hm,
        mapGet_append_single_self _ _ _ (mapGet_none_of_not_mapHas hm),
        mapGet_none_of_not_mapHas hm]
      rfl
  · rw [if_neg hk, if_neg hk, if_neg hk]
    by_cases hm : mapHas st.nodeMap (generateMessageFingerprint e) = true
    · rw [if_pos hm]
    · rw [if_neg hm, mapGet_append_single_other _ _ _ _ (fun h => hk h.symm)]

lemma addFileStep_parentsAt_some (i : Nat) (st : JSONLMerger) (pfp : String) (e : Entry)
    (hs : e.is_system = false) (k : String) :
    parentsAt (addFileStep i st (some pfp) e).1 k =
      if k = generateMessageFingerprint e then
        some (setAdd ((parentsAt st k).getD []) pfp)
      else parentsAt st k := by
  have hs' : ¬ (e.is_system = true) := by simp [hs]
  simp only [addFileStep, hs', if_false, Bool.false_eq_true, ite_false]
  unfold parentsAt
  set m2 := updateNode (updateNode (if mapHas st.nodeMap
      (generateMessageFingerprint e) = true then st.nodeMap
      else st.nodeMap ++ [(generateMessageFingerprint e,
        MessageNode.new (generateMessageFingerprint e) e)]) (generateMessageFingerprint e)
      (fun n => { n with fileIndices := setAdd n.fileIndices i }))
      (generateMessageFingerprint e)
      (fun n => { n with parents := setAdd n.parents pfp }) with hm2
  have core : (mapGet m2 k).map (fun n => n.parents) =
      if k = generateMessageFingerprint e then
        some (setAdd (((mapGet st.nodeMap k).map (fun n => n.parents)).getD []) pfp)
      else (mapGet st.nodeMap k).map (fun n => n.parents) := by
    rw [hm2, mapGet_updateNode, mapGet_updateNode]
    by_cases hk : k = generateMessageFingerprint e
    · rw [if_pos hk, if_pos hk, if_pos hk, hk]
      by_cases hm : mapHas st.nodeMap (generateMessageFingerprint e) = true
      · rw [if_pos hm]
        obtain ⟨n, hn⟩ := mapGet_some_of_mapHas hm
        rw [hn]
        rfl
      · rw [if_neg hm,
          mapGet_append_single_self _ _ _ (mapGet_none_of_not_mapHas hm),
          mapGet_none_of_not_mapHas hm]
        rfl
    · rw [if_neg hk, if_neg hk, if_neg hk]
      by_cases hm : mapHas st.nodeMap (generateMessageFingerprint e) = true
      · rw [if_pos hm]
      · rw [if_neg hm, mapGet_append_single_other _ _ _ _ (fun h => hk h.symm)]
  by_cases houter : mapHas m2 pfp = true
  · rw [if_pos houter, mapGet_updateNode]
    by_cases hkp : k = pfp
    · rw [if_pos hkp,
        parents_map_one _ (fun n =>
          { n with children := setAdd n.children (generateMessageFingerprint e) })
          (fun n => rfl), core]
    · rw [if_neg hkp, core]
  · rw [if_neg houter, core]

lemma addFileStep_children_none (i : Nat) (st : JSONLMerger) (e : Entry)
    (hs : e.is_system = false) (k : String) (n' : MessageNode)
    (hg : mapGet (addFileStep i st none e).1.nodeMap k = some n') :
    ∀ c ∈ n'.children, ∃ n, mapGet st.nodeMap k = some n ∧ c ∈ n.children := by
  have hs' : ¬ (e.is_system = true) := by simp [hs]
  simp only [addFileStep, hs', if_false, Bool.false_eq_true, ite_false] at hg
  rw [mapGet_updateNode, mapGet_updateNode] at hg
  intro c hc
  by_cases hk : k = generateMessageFingerprint e
  · rw [if_pos hk, if_pos hk] at hg
    by_cases hm : mapHas st.nodeMap (generateMessageFingerprint e) = true
    · rw [if_pos hm] at hg
      obtain ⟨n, hn⟩ := mapGet_some_of_mapHas hm
      rw [hk, hn] at hg
      injection hg with h
      have hch : n'.children = n.children := by rw [← h]
      rw [hch] at hc
      exact ⟨n, by rw [hk]; exact hn, hc⟩
    · rw [if_neg hm, hk,
        mapGet_append_single_self _ _ _ (mapGet_none_of_not_mapHas hm)] at hg
      injection hg with h
      have hch : n'.children = [] := by rw [← h]; rfl
      rw [hch] at hc
      simp at hc
  · rw [if_neg hk, if_neg hk] at hg
    by_cases hm : mapHas st.nodeMap (generateMessageFingerprint e) = true
    · rw [if_pos hm] at hg
      exact ⟨n', hg, hc⟩
    · rw [if_neg hm, mapGet_append_single_other _ _ _ _ (fun h => hk h.symm)] at hg
      exact ⟨n', hg, hc⟩

lemma addFileStep_children_some (i : Nat) (st : JSONLMerger) (pfp : String) (e : Entry)
    (hs : e.is_system = false) (k : String) (n' : MessageNode)
    (hg : mapGet (addFileStep i st (some pfp) e).1.nodeMap k = some n') :
    ∀ c ∈ n'.children, (∃ n, mapGet st.nodeMap k = some n ∧ c ∈ n.children) ∨
      c = generateMessageFingerprint e := by
  have hs' : ¬ (e.is_system = true) := by simp [hs]
  simp only [addFileStep, hs', if_false, Bool.false_eq_true, ite_false] at hg
  set m2 := updateNode (updateNode (if mapHas st.nodeMap
      (generateMessageFingerprint e) = true then st.nodeMap
      else st.nodeMap ++ [(generateMessageFingerprint e,
        MessageNode.new (generateMessageFingerprint e) e)]) (generateMessageFingerprint e)
      (fun n => { n with fileIndices := setAdd n.fileIndices i }))
      (generateMessageFingerprint e)
      (fun n => { n with parents := setAdd n.parents pfp }) with hm2
  have core : ∀ n2, mapGet m2 k = some n2 → ∀ c ∈ n2.children,
      ∃ n, mapGet st.nodeMap k = some n ∧ c ∈ n.children := by
    intro n2 hg2 c hc
    rw [hm2, mapGet_updateNode, mapGet_updateNode] at hg2
    by_cases hk : k = generateMessageFingerprint e
    · rw [if_pos hk, if_pos hk] at hg2
      by_cases hm : mapHas st.nodeMap (generateMessageFingerprint e) = true
      · rw [if_pos hm] at hg2
        obtain ⟨n, hn⟩ := mapGet_some_of_mapHas hm
        rw [hk, hn] at hg2
        injection hg2 with h
        have hch : n2.children = n.children := by rw [← h]
        rw [hch] at hc
        exact ⟨n, by rw [hk]; exact hn, hc⟩
      · rw [if_neg hm, hk,
          mapGet_append_single_self _ _ _ (mapGet_none_of_not_mapHas hm)] at hg2
        injection hg2 with h
        have hch : n2.children = [] := by rw [← h]; rfl
        rw [hch] at hc
        simp at hc
    · rw [if_neg hk, if_neg hk] at hg2
      by_cases hm : mapHas st.nodeMap (generateMessageFingerprint e) = true
      · rw [if_pos hm] at hg2
        exact ⟨n2, hg2, hc⟩
      · rw [if_neg hm, mapGet_append_single_other _ _ _ _ (fun h => hk h.symm)] at hg2
        exact ⟨n2, hg2, hc⟩
  intro c hc
  by_cases houter : mapHas m2 pfp = true
  · rw [if_pos houter, mapGet_updateNode] at hg
    by_cases hkp : k = pfp
    · rw [if_pos hkp] at hg
      cases hg2 : mapGet m2 k with
      | none => rw [hg2] at hg; simp at hg
      | some n2 =>
          rw [hg2] at hg
          injection hg with h
          have hch : n'.children = setAdd n2.children (generateMessageFingerprint e) := by
            rw [← h]
          rw [hch] at hc
          rcases setAdd_mem hc with h2 | h2
          · exact Or.inl (core n2 hg2 c h2)
          · exact Or.inr h2
    · rw [if_neg hkp] at hg
      exact Or.inl (core n' hg c hc)
  · rw [if_neg houter] at hg
    exact Or.inl (core n' hg c hc)

lemma addFileStep_keys_of_new (i : Nat) (st : JSONLMerger) (prev : Option String)
    (e : Entry) (hs : e.is_system = false)
    (hm : ¬ mapHas st.nodeMap (generateMessageFingerprint e) = true) :
    (addFileStep i st prev e).1.nodeKeys =
      st.nodeKeys ++ [generateMessageFingerprint e] := by
  have hs' : ¬ (e.is_system = true) := by simp [hs]
  cases prev with
  | none =>
      simp [addFileStep, hs', hm, JSONLMerger.nodeKeys, updateNode_keys]
  | some pfp =>
      simp only [addFileStep, hs', hm, if_false, Bool.false_eq_true, ite_false]
      split <;> simp [JSONLMerger.nodeKeys, updateNode_keys]

lemma setAdd_ne_nil {α : Type} [DecidableEq α] (l : List α) (a : α) :
    (setAdd l a).isEmpty = false := by
  by_cases hm : a ∈ l
  · rw [setAdd, if_pos hm]
    cases l with
    | nil => simp at hm
    | cons x rest => rfl
  · rw [setAdd, if_neg hm]
    cases l <;> rfl

lemma emptyAtB_step_none (i : Nat) (st : JSONLMerger) (e : Entry)
    (hs : e.is_system = false) (k : String) :
    emptyAtB (addFileStep i st none e).1 k =
      if k = generateMessageFingerprint e then ((parentsAt st k).getD []).isEmpty
      else emptyAtB st k := by
  unfold emptyAtB
  rw [addFileStep_parentsAt_none i st e hs k]
  by_cases hk : k = generateMessageFingerprint e
  · rw [if_pos hk, if_pos hk]
    rfl
  · rw [if_neg hk, if_neg hk]

lemma emptyAtB_step_some (i : Nat) (st : JSONLMerger) (pfp : String) (e : Entry)
    (hs : e.is_system = false) (k : String) :
    emptyAtB (addFileStep i st (some pfp) e).1 k =
      if k = generateMessageFingerprint e then false else emptyAtB st k := by
  unfold emptyAtB
  rw [addFileStep_parentsAt_some i st pfp e hs k]
  by_cases hk : k = generateMessageFingerprint e
  · rw [if_pos hk, if_pos hk]
    simp [setAdd_ne_nil]
  · rw [if_neg hk, if_neg hk]

/-- The node-map keys contain no duplicates. -/
def KeysNodup (st : JSONLMerger) : Prop := st.nodeKeys.Nodup

/-- Every recorded file-root fingerprint is a key of the node map. -/
def RootsSub (st : JSONLMerger) : Prop :=
  ∀ r ∈ st.rootFingerprints, r ∈ st.nodeKeys

/-- The empty-parents keys, in node-map insertion order, coincide with
the empty-parents keys in file-root recording order. -/
def OrderInv (st : JSONLMerger) : Prop :=
  st.nodeKeys.filter (emptyAtB st) = st.rootFingerprints.filter (emptyAtB st)

/-- Every child edge points at a node that is present and has a
nonempty parents set. -/
def ChildBacked (st : JSONLMerger) : Prop :=
  ∀ k n, mapGet st.nodeMap k = some n → ∀ c ∈ n.children,
    ∃ nc, mapGet st.nodeMap c = some nc ∧ nc.parents ≠ []

/-- The combined structural invariant of a merger state. -/
def MergerInv (st : JSONLMerger) : Prop :=
  KeysNodup st ∧ RootsSub st ∧ OrderInv st ∧ ChildBacked st

lemma parentsAt_some_iff {st : JSONLMerger} {k : String} {L : List String} :
    parentsAt st k = some L ↔ ∃ n, mapGet st.nodeMap k = some n ∧ n.parents = L := by
  simp [parentsAt, Option.map_eq_some']

lemma mem_keys_iff_parentsAt {st : JSONLMerger} {k : String} :
    k ∈ st.nodeKeys ↔ ∃ L, parentsAt st k = some L := by
  constructor
  · intro h
    obtain ⟨n, hn⟩ := mapGet_some_of_mapHas (mapHas_iff.mpr h)
    exact ⟨n.parents, by simp [parentsAt, hn]⟩
  · rintro ⟨L, hL⟩
    obtain ⟨n, hn, -⟩ := parentsAt_some_iff.mp hL
    by_contra hmem
    rw [mapGet_none_iff.mpr hmem] at hn
    cases hn

lemma emptyAtB_eq_of_parentsAt {st : JSONLMerger} {k : String} {L : List String}
    (h : parentsAt st k = some L) : emptyAtB st k = L.isEmpty := by
  rw [emptyAtB, h]
  rfl

lemma addFileStep_childBacked (i : Nat) (st : JSONLMerger) (prev : Option String)
    (e : Entry) (hs0 : e.is_system = false) (hcb : ChildBacked st) :
    ChildBacked (addFileStep i st prev e).1 := by
  intro k n' hg c hc
  have hold : ∀ nc, mapGet st.nodeMap c = some nc → nc.parents ≠ [] →
      ∃ nc', mapGet (addFileStep i st prev e).1.nodeMap c = some nc' ∧
        nc'.parents ≠ [] := by
    intro nc hnc hne
    have hpar : parentsAt st c = some nc.parents := by simp [parentsAt, hnc]
    cases prev with
    | none =>
        have hstep := addFileStep_parentsAt_none i st e hs0 c
        by_cases hcf : c = generateMessageFingerprint e
        · rw [if_pos hcf, hpar] at hstep
          obtain ⟨nc', hnc', hp⟩ := parentsAt_some_iff.mp hstep
          exact ⟨nc', hnc', by rw [hp]; exact hne⟩
        · rw [if_neg hcf, hpar] at hstep
          obtain ⟨nc', hnc', hp⟩ := parentsAt_some_iff.mp hstep
          exact ⟨nc', hnc', by rw [hp]; exact hne⟩
    | some pfp =>
        have hstep := addFileStep_parentsAt_some i st pfp e hs0 c
        by_cases hcf : c = generateMessageFingerprint e
        · rw [if_pos hcf, hpar] at hstep
          obtain ⟨nc', hnc', hp⟩ := parentsAt_some_iff.mp hstep
          refine ⟨nc', hnc', ?_⟩
          rw [hp]
          exact List.isEmpty_eq_false.mp (setAdd_ne_nil _ _)
        · rw [if_neg hcf, hpar] at hstep
          obtain ⟨nc', hnc', hp⟩ := parentsAt_some_iff.mp hstep
          exact ⟨nc', hnc', by rw [hp]; exact hne⟩
  cases prev with
  | none =>
      obtain ⟨n, hn, hcn⟩ := addFileStep_children_none i st e hs0 k n' hg c hc
      obtain ⟨nc, hnc, hne⟩ := hcb k n hn c hcn
      exact hold nc hnc hne
  | some pfp =>
      rcases addFileStep_children_some i st pfp e hs0 k n' hg c hc with ⟨n, hn, hcn⟩ | hcf
      · obtain ⟨nc, hnc, hne⟩ := hcb k n hn c hcn
        exact hold nc hnc hne
      · subst hcf
        have hstep := addFileStep_parentsAt_some i st pfp e hs0
          (generateMessageFingerprint e)
        rw [if_pos rfl] at hstep
        obtain ⟨nc', hnc', hp⟩ := parentsAt_some_iff.mp hstep
        refine ⟨nc', hnc', ?_⟩
        rw [hp]
        exact List.isEmpty_eq_false.mp (setAdd_ne_nil _ _)

lemma addFileStep_inv (i : Nat) (st : JSONLMerger) (prev : Option String) (e : Entry)
    (h : MergerInv st) : MergerInv (addFileStep i st prev e).1 := by
  obtain ⟨hnd, hsub, hord, hcb⟩ := h
  by_cases hs : e.is_system = true
  · rw [addFileStep_sys i st prev e hs]
    exact ⟨hnd, hsub, hord, hcb⟩
  have hs0 : e.is_system = false := by simpa using hs
  have hcbNew := addFileStep_childBacked i st prev e hs0 hcb
  obtain ⟨t, hkt⟩ := addFileStep_keys i st prev e
  have hsubNew : RootsSub (addFileStep i st prev e).1 := by
    intro r hr
    have hrcases : r ∈ st.rootFingerprints ∨ r = generateMessageFingerprint e := by
      cases prev with
      | none =>
          rw [addFileStep_rootFps_none i st e hs0] at hr
          exact setAdd_mem hr
      | some pfp =>
          rw [addFileStep_rootFps_some i st pfp e hs0] at hr
          exact Or.inl hr
    rcases hrcases with hr | hr
    · rw [hkt]
      exact List.mem_append_left _ (hsub r hr)
    · subst hr
      exact addFileStep_mem i st prev e hs0
  by_cases hm : mapHas st.nodeMap (generateMessageFingerprint e) = true
  · -- the fingerprint already has a node
    have hk : (addFileStep i st prev e).1.nodeKeys = st.nodeKeys :=
      addFileStep_keys_eq i st prev e (Or.inr (mapHas_iff.mp hm))
    have hndNew : KeysNodup (addFileStep i st prev e).1 := by rw [KeysNodup, hk]; exact hnd
    obtain ⟨L, hL⟩ := mem_keys_iff_parentsAt.mp (mapHas_iff.mp hm)
    refine ⟨hndNew, hsubNew, ?_, hcbNew⟩
    cases prev with
    | none =>
        have hEeq : ∀ k, emptyAtB (addFileStep i st none e).1 k = emptyAtB st k := by
          intro k
          rw [emptyAtB_step_none i st e hs0 k]
          by_cases hkf : k = generateMessageFingerprint e
          · subst hkf
            rw [if_pos rfl, hL, emptyAtB_eq_of_parentsAt hL]
            rfl
          · rw [if_neg hkf]
        have hfilters : ∀ l : List String,
            l.filter (emptyAtB (addFileStep i st none e).1) = l.filter (emptyAtB st) :=
          fun l => List.filter_congr (fun x _ => hEeq x)
        rw [OrderInv, hk, hfilters, addFileStep_rootFps_none i st e hs0, hfilters, hord]
        by_cases hmem : generateMessageFingerprint e ∈ st.rootFingerprints
        · rw [setAdd, if_pos hmem]
        · rw [setAdd, if_neg hmem, List.filter_append]
          have hEfp : emptyAtB st (generateMessageFingerprint e) = false := by
            by_contra hcon
            have htrue : emptyAtB st (generateMessageFingerprint e) = true := by
              cases hEB : emptyAtB st (generateMessageFingerprint e)
              · exact absurd hEB hcon
              · rfl
            have : generateMessageFingerprint e ∈
                st.nodeKeys.filter (emptyAtB st) :=
              List.mem_filter.mpr ⟨mapHas_iff.mp hm, htrue⟩
            rw [hord] at this
            exact hmem (List.mem_filter.mp this).1
          simp [hEfp]
    | some pfp =>
        have hEband : ∀ k, emptyAtB (addFileStep i st (some pfp) e).1 k =
            ((!(k == generateMessageFingerprint e)) && emptyAtB st k) := by
          intro k
          rw [emptyAtB_step_some i st pfp e hs0 k]
          by_cases hkf : k = generateMessageFingerprint e
          · simp [hkf]
          · simp [hkf]
        have hchain : ∀ l : List String,
            l.filter (emptyAtB (addFileStep i st (some pfp) e).1) =
            (l.filter (emptyAtB st)).filter
              (fun k => !(k == generateMessageFingerprint e)) := by
          intro l
          rw [List.filter_filter]
          exact List.filter_congr (fun x _ => hEband x)
        rw [OrderInv, hk, hchain, addFileStep_rootFps_some i st pfp e hs0, hchain, hord]
  · -- fresh fingerprint
    have hfresh : ¬ generateMessageFingerprint e ∈ st.nodeKeys :=
      fun hmem => hm (mapHas_iff.mpr hmem)
    have hk : (addFileStep i st prev e).1.nodeKeys =
        st.nodeKeys ++ [generateMessageFingerprint e] :=
      addFileStep_keys_of_new i st prev e hs0 hm
    have hndNew : KeysNodup (addFileStep i st prev e).1 := by
      rw [KeysNodup, hk, List.nodup_append]
      exact ⟨hnd, List.nodup_singleton _,
        fun a ha hb => hfresh (by rw [← List.mem_singleton.mp hb]; exact ha)⟩
    have hrfp : ¬ generateMessageFingerprint e ∈ st.rootFingerprints :=
      fun hr => hfresh (hsub _ hr)
    have hparNone : parentsAt st (generateMessageFingerprint e) = none := by
      rw [parentsAt, mapGet_none_of_not_mapHas hm]
      rfl
    refine ⟨hndNew, hsubNew, ?_, hcbNew⟩
    cases prev with
    | none =>
        have hEeq : ∀ k, ¬ k = generateMessageFingerprint e →
            emptyAtB (addFileStep i st none e).1 k = emptyAtB st k := by
          intro k hkf
          rw [emptyAtB_step_none i st e hs0 k, if_neg hkf]
        have hfilters : ∀ l : List String, (∀ x ∈ l, ¬ x = generateMessageFingerprint e) →
            l.filter (emptyAtB (addFileStep i st none e).1) = l.filter (emptyAtB st) :=
          fun l hl => List.filter_congr (fun x hx => hEeq x (hl x hx))
        rw [OrderInv, hk, addFileStep_rootFps_none i st e hs0, setAdd, if_neg hrfp,
          List.filter_append, List.filter_append,
          hfilters st.nodeKeys (fun x hx h => hfresh (h ▸ hx)),
          hfilters st.rootFingerprints (fun x hx h => hrfp (h ▸ hx)), hord]
    | some pfp =>
        have hEband : ∀ k, emptyAtB (addFileStep i st (some pfp) e).1 k =
            ((!(k == generateMessageFingerprint e)) && emptyAtB st k) := by
          intro k
          rw [emptyAtB_step_some i st pfp e hs0 k]
          by_cases hkf : k = generateMessageFingerprint e
          · simp [hkf]
          · simp [hkf]
        have hchain : ∀ l : List String,
            l.filter (emptyAtB (addFileStep i st (some pfp) e).1) =
            (l.filter (emptyAtB st)).filter
              (fun k => !(k == generateMessageFingerprint e)) := by
          intro l
          rw [List.filter_filter]
          exact List.filter_congr (fun x _ => hEband x)
        rw [OrderInv, hk, List.filter_append, hchain,
          addFileStep_rootFps_some i st pfp e hs0, hchain, hord]
        have hEfp : emptyAtB (addFileStep i st (some pfp) e).1
            (generateMessageFingerprint e) = false := by
          rw [emptyAtB_step_some i st pfp e hs0, if_pos rfl]
        have hEstfp : emptyAtB st (generateMessageFingerprint e) = false := by
          rw [emptyAtB, hparNone]
          rfl
        simp only [hEfp, hEstfp, List.filter_cons, List.filter_nil, Bool.false_eq_true,
          ite_false, List.append_nil]
        rw [List.filter_filter]
        exact List.filter_congr (fun x _ => (hEband x).symm)

lemma addFileFold_inv (i : Nat) (msgs : List Entry) :
    ∀ acc : JSONLMerger × Option String, MergerInv acc.1 →
    MergerInv (msgs.foldl (fun acc e => addFileStep i acc.1 acc.2 e) acc).1 := by
  induction msgs with
  | nil => intro acc h; exact h
  | cons e rest ih =>
      intro acc h
      exact ih _ (addFileStep_inv i acc.1 acc.2 e h)

lemma addFile_inv (st : JSONLMerger) (msgs : List Entry) (i : Nat)
    (h : MergerInv st) : MergerInv (st.addFile msgs i) :=
  addFileFold_inv i msgs (st, none) h

lemma addFilesFrom_inv : ∀ (fs : List (List Entry)) (st : JSONLMerger) (i : Nat),
    MergerInv st → MergerInv (addFilesFrom st fs i) := by
  intro fs
  induction fs with
  | nil => intro st i h; exact h
  | cons f rest ih =>
      intro st i h
      exact ih _ _ (addFile_inv st f i h)

lemma mergerInv_init : MergerInv JSONLMerger.init :=
  ⟨List.nodup_nil, fun r hr => absurd hr (List.not_mem_nil r), rfl,
    fun k n hg => by rw [show mapGet JSONLMerger.init.nodeMap k = none from rfl] at hg; cases hg⟩

lemma runMerger_inv (files : List (List Entry)) : MergerInv (runMerger files) :=
  addFilesFrom_inv files JSONLMerger.init 0 mergerInv_init

lemma findTrueRoots_keysFilter (st : JSONLMerger) (hpc : ParentsClosed st)
    (hnd : KeysNodup st) :
    st.findTrueRoots = st.nodeKeys.filter (emptyAtB st) := by
  have haux : ∀ l : List (String × MessageNode), (∀ p ∈ l, p ∈ st.nodeMap) →
      l.filterMap (fun p => if p.2.parents.any (fun pfp => mapHas st.nodeMap pfp)
        then none else some p.1) = (l.map Prod.fst).filter (emptyAtB st) := by
    intro l
    induction l with
    | nil => intro _; rfl
    | cons p rest ih =>
        intro h
        have hmem : p ∈ st.nodeMap := h p (List.mem_cons_self p rest)
        have hget : mapGet st.nodeMap p.1 = some p.2 :=
          mapGet_some_of_mem_nodup hnd hmem
        have hE : emptyAtB st p.1 = p.2.parents.isEmpty := by
          rw [emptyAtB, parentsAt, hget]
          rfl
        have hrest := ih (fun x hx => h x (List.mem_cons_of_mem p hx))
        cases hpar : p.2.parents with
        | nil =>
            have hEp : emptyAtB st p.1 = true := by rw [hE, hpar]; rfl
            simp only [List.filterMap_cons, List.map_cons, List.filter_cons, hpar,
              List.any_nil, Bool.false_eq_true, ite_false, hEp, if_true, ite_true]
            rw [hrest]
        | cons q qs =>
            have hq : q ∈ st.nodeKeys := hpc p hmem q (by rw [hpar]; simp)
            have hhas : mapHas st.nodeMap q = true := mapHas_iff.mpr hq
            have hEp : emptyAtB st p.1 = false := by rw [hE, hpar]; rfl
            simp only [List.filterMap_cons, List.map_cons, List.filter_cons, hpar,
              List.any_cons, hhas, Bool.true_or, ite_true, hEp, Bool.false_eq_true,
              ite_false]
            exact hrest
  exact haux st.nodeMap (fun p hp => hp)

lemma rootsOrder_of_inv (st : JSONLMerger) (hpc : ParentsClosed st)
    (hinv : MergerInv st) :
    st.findTrueRoots = st.rootFingerprints.filter
      (fun fp => decide (fp ∈ st.findTrueRoots)) := by
  obtain ⟨hnd, hsub, hord, -⟩ := hinv
  have hB1 := findTrueRoots_keysFilter st hpc hnd
  have hcongr : ∀ x ∈ st.rootFingerprints,
      emptyAtB st x = decide (x ∈ st.findTrueRoots) := by
    intro x hx
    have hxk : x ∈ st.nodeKeys := hsub x hx
    by_cases hmem : x ∈ st.findTrueRoots
    · rw [decide_eq_true hmem]
      rw [hB1] at hmem
      exact (List.mem_filter.mp hmem).2
    · rw [decide_eq_false hmem]
      cases hEx : emptyAtB st x with
      | false => rfl
      | true =>
          exact absurd (by rw [hB1]; exact List.mem_filter.mpr ⟨hxk, hEx⟩) hmem
  calc st.findTrueRoots = st.nodeKeys.filter (emptyAtB st) := hB1
  _ = st.rootFingerprints.filter (emptyAtB st) := hord
  _ = st.rootFingerprints.filter (fun fp => decide (fp ∈ st.findTrueRoots)) :=
      List.filter_congr hcongr

lemma hist_extend {base mid : List NormalizedMessage} {A : List NormalizedMessage}
    (h1 : A = base ++ mid) {B : List NormalizedMessage}
    (h2 : ∃ t, B = A ++ t) : ∃ t, B = base ++ t := by
  obtain ⟨t, ht⟩ := h2
  exact ⟨mid ++ t, by rw [ht, h1, List.append_assoc]⟩

lemma hist_extend2 {B A base : List NormalizedMessage}
    (h2 : ∃ t, B = A ++ t) (mid : List NormalizedMessage) (h1 : A = base ++ mid) :
    ∃ t, B = base ++ t := by
  obtain ⟨t, ht⟩ := h2
  exact ⟨mid ++ t, by rw [ht, h1, List.append_assoc]⟩

lemma swipeLoop_hist_append (fp : String) (pu : Option String) (nm sl tsp : String)
    (iu gbp : Bool) (tot sel : Nat) (bid : String) (lvl : Nat) :
    ∀ (swipes : List String) (sIdx : Nat) (ts : TravState) (cur : Option String),
    ∃ t, (swipeLoop fp pu nm sl tsp iu gbp tot sel bid lvl
      swipes sIdx ts cur).1.chatHistory = ts.chatHistory ++ t := by
  intro swipes
  induction swipes with
  | nil => intro sIdx ts cur; exact ⟨[], by simp [swipeLoop]⟩
  | cons s rest ih =>
      intro sIdx ts cur
      simp only [swipeLoop]
      split_ifs <;> exact hist_extend rfl (ih _ _ _)

lemma childLoopF_hist_append
    (tr : String → Option String → String → Nat → TravState → TravState × Option String)
    (htr : ∀ fp pu bid lvl ts, ∃ t, (tr fp pu bid lvl ts).1.chatHistory =
      ts.chatHistory ++ t)
    (total : Nat) (bid : String) (lvl : Nat) (cur : Option String) :
    ∀ (children : List String) (cIdx : Nat) (ts : TravState),
    ∃ t, (childLoopF tr total bid lvl cur children cIdx ts).chatHistory =
      ts.chatHistory ++ t := by
  intro children
  induction children with
  | nil => intro cIdx ts; exact ⟨[], by simp [childLoopF]⟩
  | cons c rest ih =>
      intro cIdx ts
      simp only [childLoopF]
      split_ifs with hc
      · exact hist_extend
          (htr c cur ("branch_" ++ natRepr (ts.branchCounter + 1)) (lvl + 1)
            { ts with branchCounter := ts.branchCounter + 1 }).choose_spec
          (ih (cIdx + 1) _)
      · exact hist_extend (htr c cur bid lvl ts).choose_spec (ih (cIdx + 1) _)

lemma traverse_hist_append : ∀ (fuel : Nat) (st : JSONLMerger) (fp : String)
    (pu : Option String) (bid : String) (lvl : Nat) (ts : TravState),
    ∃ t, (traverse st fuel fp pu bid lvl ts).1.chatHistory = ts.chatHistory ++ t := by
  intro fuel
  induction fuel with
  | zero => intro st fp pu bid lvl ts; exact ⟨[], by rw [traverse.eq_1]; simp⟩
  | succ f ih =>
      intro st fp pu bid lvl ts
      rw [traverse.eq_2]
      by_cases hv : fp ∈ ts.visited
      · rw [if_pos hv]
        exact ⟨[], by simp⟩
      · rw [if_neg hv]
        cases hg : mapGet st.nodeMap fp with
        | none =>
            simp only [hg]
            exact ⟨[], by simp⟩
        | some node =>
            simp only [hg]
            split
            · exact hist_extend2
                (childLoopF_hist_append (fun a b c d e => traverse st f a b c d e)
                  (fun a b c d e => ih st a b c d e) _ _ _ _ _ _ _)
                _ (swipeLoop_hist_append _ _ _ _ _ _ _ _ _ _ _ _ _ _ _).choose_spec
            · exact hist_extend2
                (childLoopF_hist_append (fun a b c d e => traverse st f a b c d e)
                  (fun a b c d e => ih st a b c d e) _ _ _ _ _ _ _)
                _ rfl

/-- A fingerprint whose node is present with a nonempty parents set. -/
def HasPar (st : JSONLMerger) (u : String) : Prop :=
  ∃ n, mapGet st.nodeMap u = some n ∧ n.parents ≠ []

lemma swipeLoop_visited (fp : String) (pu : Option String) (nm sl tsp : String)
    (iu gbp : Bool) (tot sel : Nat) (bid : String) (lvl : Nat) :
    ∀ (swipes : List String) (sIdx : Nat) (ts : TravState) (cur : Option String),
    (swipeLoop fp pu nm sl tsp iu gbp tot sel bid lvl
      swipes sIdx ts cur).1.visited = ts.visited := by
  intro swipes
  induction swipes with
  | nil => intro sIdx ts cur; rfl
  | cons s rest ih =>
      intro sIdx ts cur
      simp only [swipeLoop]
      split_ifs <;> exact ih _ _ _

lemma childLoopF_visited
    (tr : String → Option String → String → Nat → TravState → TravState × Option String)
    (P : String → Prop)
    (htr : ∀ fp pu bid lvl ts u, u ∈ (tr fp pu bid lvl ts).1.visited →
      u ∈ ts.visited ∨ u = fp ∨ P u)
    (total : Nat) (bid : String) (lvl : Nat) (cur : Option String) :
    ∀ (children : List String), (∀ c ∈ children, P c) →
    ∀ (cIdx : Nat) (ts : TravState) (u : String),
    u ∈ (childLoopF tr total bid lvl cur children cIdx ts).visited →
    u ∈ ts.visited ∨ P u := by
  intro children
  induction children with
  | nil => intro _ cIdx ts u hu; exact Or.inl hu
  | cons c rest ih =>
      intro hch cIdx ts u hu
      simp only [childLoopF] at hu
      have hrest := fun ts' =>
        ih (fun x hx => hch x (List.mem_cons_of_mem c hx)) (cIdx + 1) ts' u
      have hstep : ∀ (bid' : String) (lvl' : Nat) (ts' : TravState),
          u ∈ (childLoopF tr total bid lvl cur rest (cIdx + 1)
            (tr c cur bid' lvl' ts').1).visited →
          u ∈ ts'.visited ∨ P u := by
        intro bid' lvl' ts' h
        rcases hrest _ h with h2 | h2
        · rcases htr c cur bid' lvl' ts' u h2 with h3 | h3 | h3
          · exact Or.inl h3
          · exact Or.inr (h3 ▸ hch c (List.mem_cons_self c rest))
          · exact Or.inr h3
        · exact Or.inr h2
      split at hu
      · have h2 := hstep _ _ _ hu
        exact h2
      · have h2 := hstep _ _ _ hu
        exact h2

lemma traverse_visited (st : JSONLMerger) (hCB : ChildBacked st) :
    ∀ (fuel : Nat) (fp : String) (pu : Option String) (bid : String) (lvl : Nat)
    (ts : TravState) (u : String),
    u ∈ (traverse st fuel fp pu bid lvl ts).1.visited →
    u ∈ ts.visited ∨ u = fp ∨ HasPar st u := by
  intro fuel
  induction fuel with
  | zero => intro fp pu bid lvl ts u hu; exact Or.inl hu
  | succ f ih =>
      intro fp pu bid lvl ts u hu
      rw [traverse.eq_2] at hu
      by_cases hv : fp ∈ ts.visited
      · rw [if_pos hv] at hu
        exact Or.inl hu
      · rw [if_neg hv] at hu
        have hsplit : ∀ w, w ∈ ts.visited ++ [fp] → w ∈ ts.visited ∨ w = fp := by
          intro w hw
          rcases List.mem_append.mp hw with h | h
          · exact Or.inl h
          · exact Or.inr (by simpa using h)
        cases hg : mapGet st.nodeMap fp with
        | none =>
            simp only [hg] at hu
            rcases hsplit u hu with h | h
            · exact Or.inl h
            · exact Or.inr (Or.inl h)
        | some node =>
            simp only [hg] at hu
            have hchp : ∀ c ∈ node.children, HasPar st c := by
              intro c hc
              obtain ⟨nc, hnc, hne⟩ := hCB fp node hg c hc
              exact ⟨nc, hnc, hne⟩
            split at hu
            · rcases childLoopF_visited _ (HasPar st)
                (fun a b c d e u h => ih a b c d e u h) _ _ _ _ node.children hchp
                _ _ u hu with h | h
              · rw [swipeLoop_visited] at h
                rcases hsplit u h with h2 | h2
                · exact Or.inl h2
                · exact Or.inr (Or.inl h2)
              · exact Or.inr (Or.inr h)
            · rcases childLoopF_visited _ (HasPar st)
                (fun a b c d e u h => ih a b c d e u h) _ _ _ _ node.children hchp
                _ _ u hu with h | h
              · rcases hsplit u h with h2 | h2
                · exact Or.inl h2
                · exact Or.inr (Or.inl h2)
              · exact Or.inr (Or.inr h)

lemma swipeLoop_counter_mono (fp : String) (pu : Option String) (nm sl tsp : String)
    (iu gbp : Bool) (tot sel : Nat) (bid : String) (lvl : Nat) :
    ∀ (swipes : List String) (sIdx : Nat) (ts : TravState) (cur : Option String),
    ts.branchCounter ≤ (swipeLoop fp pu nm sl tsp iu gbp tot sel bid lvl
      swipes sIdx ts cur).1.branchCounter := by
  intro swipes
  induction swipes with
  | nil => intro sIdx ts cur; exact le_refl _
  | cons s rest ih =>
      intro sIdx ts cur
      simp only [swipeLoop]
      split_ifs <;>
        · refine le_trans ?_ (ih _ _ _)
          first
            | exact le_refl _
            | exact Nat.le_succ _

lemma childLoopF_counter_mono
    (tr : String → Option String → String → Nat → TravState → TravState × Option String)
    (htr : ∀ fp pu bid lvl ts, ts.branchCounter ≤ (tr fp pu bid lvl ts).1.branchCounter)
    (total : Nat) (bid : String) (lvl : Nat) (cur : Option String) :
    ∀ (children : List String) (cIdx : Nat) (ts : TravState),
    ts.branchCounter ≤ (childLoopF tr total bid lvl cur children cIdx ts).branchCounter := by
  intro children
  induction children with
  | nil => intro cIdx ts; exact le_refl _
  | cons c rest ih =>
      intro cIdx ts
      simp only [childLoopF]
      split_ifs with hc
      · exact le_trans (Nat.le_succ _)
          (le_trans (htr c cur ("branch_" ++ natRepr (ts.branchCounter + 1)) (lvl + 1)
            { ts with branchCounter := ts.branchCounter + 1 }) (ih (cIdx + 1) _))
      · exact le_trans (htr c cur bid lvl ts) (ih (cIdx + 1) _)

lemma traverse_counter_mono : ∀ (fuel : Nat) (st : JSONLMerger) (fp : String)
    (pu : Option String) (bid : String) (lvl : Nat) (ts : TravState),
    ts.branchCounter ≤ (traverse st fuel fp pu bid lvl ts).1.branchCounter := by
  intro fuel
  induction fuel with
  | zero => intro st fp pu bid lvl ts; exact le_refl _
  | succ f ih =>
      intro st fp pu bid lvl ts
      rw [traverse.eq_2]
      by_cases hv : fp ∈ ts.visited
      · rw [if_pos hv]
      · rw [if_neg hv]
        cases hg : mapGet st.nodeMap fp with
        | none =>
            simp only [hg]
            exact le_refl _
        | some node =>
            simp only [hg]
            split
            · refine le_trans ?_ (childLoopF_counter_mono
                (fun a b c d e => traverse st f a b c d e)
                (fun a b c d e => ih st a b c d e) _ _ _ _ _ _ _)
              refine le_trans ?_ (swipeLoop_counter_mono _ _ _ _ _ _ _ _ _ _ _ _ _ _ _)
              exact le_refl _
            · refine le_trans ?_ (childLoopF_counter_mono
                (fun a b c d e => traverse st f a b c d e)
                (fun a b c d e => ih st a b c d e) _ _ _ _ _ _ _)
              exact le_refl _

lemma hist_extend3 {B A base : List NormalizedMessage} {m : NormalizedMessage}
    (h2 : ∃ t, B = A ++ t) (h1 : A = base ++ [m]) :
    ∃ t, B = base ++ m :: t := by
  obtain ⟨t, ht⟩ := h2
  exact ⟨t, by rw [ht, h1]; simp⟩

lemma hist_extend4 {B A base : List NormalizedMessage} {m : NormalizedMessage}
    (h2 : ∃ t, B = A ++ t) (h1 : ∃ t, A = base ++ m :: t) :
    ∃ t, B = base ++ m :: t := by
  obtain ⟨t2, ht2⟩ := h2
  obtain ⟨t1, ht1⟩ := h1
  exact ⟨t1 ++ t2, by rw [ht2, ht1]; simp⟩

/-- The first iteration of the swipes loop emits the first message of the
node: it keeps the caller's branch id and branch level, and it is marked
as a branch point whenever the node is a graph fork. -/
lemma swipeLoop_emit (fp : String) (pu : Option String) (nm sl tsp : String)
    (iu gbp : Bool) (tot sel : Nat) (bid : String) (lvl : Nat)
    (s : String) (rest : List String) (ts : TravState) (cur : Option String) :
    ∃ m, (∃ t, (swipeLoop fp pu nm sl tsp iu gbp tot sel bid lvl
        (s :: rest) 0 ts cur).1.chatHistory = ts.chatHistory ++ m :: t) ∧
      m.branch_id = bid ∧ m.branch_level = lvl ∧
      (gbp = true → m.is_branch_point = true) := by
  have H := swipeLoop_hist_append fp pu nm sl tsp iu gbp tot sel bid lvl
  simp only [swipeLoop, gt_iff_lt, lt_self_iff_false, if_false]
  split_ifs with hsel hbp hbp'
  · exact ⟨_, hist_extend3 (H rest 1 _ _) rfl, rfl, rfl, fun _ => rfl⟩
  · exact ⟨_, hist_extend3 (H rest 1 _ _) rfl, rfl, rfl,
      fun hg => absurd ⟨trivial, Or.inl hg⟩ hbp⟩
  · exact ⟨_, hist_extend3 (H rest 1 _ _) rfl, rfl, rfl, fun _ => rfl⟩
  · exact ⟨_, hist_extend3 (H rest 1 _ _) rfl, rfl, rfl,
      fun hg => absurd ⟨trivial, Or.inl hg⟩ hbp'⟩

/-- An unvisited fingerprint backed by a node emits: the history grows by
a block whose head message carries the caller's branch id and branch
level, and is tagged as a branch point when the node has more than one
child. -/
lemma traverse_emit (st : JSONLMerger) (fuel : Nat) (fp : String) (pu : Option String)
    (bid : String) (lvl : Nat) (ts : TravState) (node : MessageNode)
    (hv : fp ∉ ts.visited) (hg : mapGet st.nodeMap fp = some node) :
    ∃ m, (∃ t, (traverse st (fuel + 1) fp pu bid lvl ts).1.chatHistory
        = ts.chatHistory ++ m :: t) ∧
      m.branch_id = bid ∧ m.branch_level = lvl ∧
      (node.children.length > 1 → m.is_branch_point = true) := by
  rw [traverse.eq_2, if_neg hv]
  simp only [hg]
  by_cases hsw : ((!node.entry.is_user) = true ∧ (node.entry.swipes.getD []).length > 1)
  · rw [if_pos hsw]
    obtain ⟨s, rest, hsr⟩ : ∃ s rest, node.entry.swipes.getD [] = s :: rest := by
      cases hl : node.entry.swipes.getD [] with
      | nil => rw [hl] at hsw; exact absurd hsw.2 (by simp)
      | cons a l => exact ⟨a, l, rfl⟩
    rw [hsr]
    obtain ⟨m, hmex, hbid, hlvl, hbp⟩ := swipeLoop_emit fp pu
      (jsStrOr node.entry.name "Unknown")
      (if node.entry.is_user = true then "User" else jsStrOr node.entry.name "Unknown")
      (jsStrOr node.entry.send_date "") node.entry.is_user
      (decide (node.children.length > 1)) (s :: rest).length (node.entry.swipe_id.getD 0)
      bid lvl s rest { ts with visited := ts.visited ++ [fp] } none
    exact ⟨m, hist_extend4 (childLoopF_hist_append
        (fun a b c d e => traverse st fuel a b c d e)
        (fun a b c d e => traverse_hist_append fuel st a b c d e) _ _ _ _ _ _ _)
      hmex, hbid, hlvl, fun hk => hbp (decide_eq_true hk)⟩
  · rw [if_neg hsw]
    by_cases hbp0 : node.children.length > 1
    · rw [if_pos hbp0]
      exact ⟨_, hist_extend3 (childLoopF_hist_append
          (fun a b c d e => traverse st fuel a b c d e)
          (fun a b c d e => traverse_hist_append fuel st a b c d e) _ _ _ _ _ _ _) rfl,
        rfl, rfl, fun _ => rfl⟩
    · rw [if_neg hbp0]
      exact ⟨_, hist_extend3 (childLoopF_hist_append
          (fun a b c d e => traverse st fuel a b c d e)
          (fun a b c d e => traverse_hist_append fuel st a b c d e) _ _ _ _ _ _ _) rfl,
        rfl, rfl, fun hk => absurd hk hbp0⟩

/-- Whatever `traverse` appends to the history, the first appended
message (when there is one) carries the caller's branch id and level. -/
lemma traverse_head (st : JSONLMerger) (fuel : Nat) (fp : String) (pu : Option String)
    (bid : String) (lvl : Nat) (ts : TravState) (m : NormalizedMessage)
    (t : List NormalizedMessage)
    (h : (traverse st fuel fp pu bid lvl ts).1.chatHistory = ts.chatHistory ++ m :: t) :
    m.branch_id = bid ∧ m.branch_level = lvl := by
  cases fuel with
  | zero =>
      rw [traverse.eq_1] at h
      exact absurd h (by simp)
  | succ f =>
      by_cases hv : fp ∈ ts.visited
      · rw [traverse.eq_2, if_pos hv] at h
        exact absurd h (by simp)
      · cases hg : mapGet st.nodeMap fp with
        | none =>
            rw [traverse.eq_2, if_neg hv] at h
            simp only [hg] at h
            exact absurd h (by simp)
        | some node =>
            obtain ⟨m2, ⟨t2, ht2⟩, hbid, hlvl, -⟩ :=
              traverse_emit st f fp pu bid lvl ts node hv hg
            rw [ht2] at h
            obtain ⟨hm, -⟩ := List.cons.inj (List.append_cancel_left h)
            rw [← hm]
            exact ⟨hbid, hlvl⟩

lemma string_append_inj {a : String} {x y : String} (h : a ++ x = a ++ y) : x = y := by
  have hd := congrArg String.data h
  rw [String.data_append, String.data_append] at hd
  have := List.append_cancel_left hd
  cases x with
  | mk xd =>
      cases y with
      | mk yd => exact congrArg String.mk this

lemma branchId_inj {a b : Nat}
    (h : "branch_" ++ natRepr a = "branch_" ++ natRepr b) : a = b :=
  natRepr_inj (string_append_inj h)

lemma branch_ne_main (k : Nat) : "branch_" ++ natRepr k ≠ "main" := by
  intro h
  have hd := congrArg String.data h
  rw [String.data_append] at hd
  have hb : ("branch_" : String).data = ['b', 'r', 'a', 'n', 'c', 'h', '_'] := rfl
  have hm : ("main" : String).data = ['m', 'a', 'i', 'n'] := rfl
  rw [hb, hm] at hd
  exact absurd (List.cons.inj hd).1 (by decide)

/-- The root loop splits the generated history into one contiguous
segment per true root: the segment of the first root starts at branch
`"main"`, level 0, every later segment starts at a freshly allocated
`branch_N` id at level 1, and the starting branch ids of distinct
segments are pairwise distinct. -/
lemma rootLoop_segs (st : JSONLMerger) (hCB : ChildBacked st) (fuel total : Nat)
    (htot : total > 1) :
    ∀ (roots : List String), roots.Nodup →
    (∀ r ∈ roots, ¬ HasPar st r) →
    (∀ r ∈ roots, ∃ n, mapGet st.nodeMap r = some n) →
    ∀ (rIdx : Nat) (ts : TravState), (∀ r ∈ roots, r ∉ ts.visited) →
    ∃ segs : List (List NormalizedMessage),
      (rootLoop st (fuel + 1) total roots rIdx ts).chatHistory
        = ts.chatHistory ++ segs.flatten ∧
      segs.length = roots.length ∧
      (∀ j (hj : j < segs.length), ∃ m rest2, segs.get ⟨j, hj⟩ = m :: rest2 ∧
        (rIdx + j = 0 → m.branch_id = "main" ∧ m.branch_level = 0) ∧
        (rIdx + j > 0 → ∃ k, ts.branchCounter < k ∧
          m.branch_id = "branch_" ++ natRepr k ∧ m.branch_level = 1)) ∧
      (∀ j1 j2 (h1 : j1 < segs.length) (h2 : j2 < segs.length), j1 < j2 →
        ∀ m1 m2, (segs.get ⟨j1, h1⟩).head? = some m1 →
          (segs.get ⟨j2, h2⟩).head? = some m2 → m1.branch_id ≠ m2.branch_id) := by
  intro roots
  induction roots with
  | nil =>
      intro _ _ _ rIdx ts _
      refine ⟨[], by simp [rootLoop], rfl, ?_, ?_⟩
      · intro j hj
        exact absurd hj (by simp)
      · intro j1 j2 h1 h2
        exact absurd h1 (by simp)
  | cons r rest' ih =>
      intro hnd hnp hpres rIdx ts hvis
      obtain ⟨node, hgr⟩ := hpres r (List.mem_cons_self r rest')
      have hrv : r ∉ ts.visited := hvis r (List.mem_cons_self r rest')
      have hndr : r ∉ rest' := (List.nodup_cons.mp hnd).1
      simp only [rootLoop]
      by_cases hpos : 0 < rIdx
      · rw [if_pos ⟨htot, hpos⟩]
        obtain ⟨m, ⟨t, ht⟩, hbid, hlvl, -⟩ := traverse_emit st fuel r (some "")
          ("branch_" ++ natRepr (ts.branchCounter + 1)) 1
          { ts with branchCounter := ts.branchCounter + 1 } node hrv hgr
        have hvis2 : ∀ r2 ∈ rest', r2 ∉ (traverse st (fuel + 1) r (some "")
            ("branch_" ++ natRepr (ts.branchCounter + 1)) 1
            { ts with branchCounter := ts.branchCounter + 1 }).1.visited := by
          intro r2 hr2 hmem
          rcases traverse_visited st hCB (fuel + 1) r (some "")
            ("branch_" ++ natRepr (ts.branchCounter + 1)) 1
            { ts with branchCounter := ts.branchCounter + 1 } r2 hmem with h | h | h
          · exact absurd h (hvis r2 (List.mem_cons_of_mem r hr2))
          · exact absurd (h ▸ hr2) hndr
          · exact absurd h (hnp r2 (List.mem_cons_of_mem r hr2))
        obtain ⟨segsTail, hh, hlen, hper, hpair⟩ := ih (List.nodup_cons.mp hnd).2
          (fun x hx => hnp x (List.mem_cons_of_mem r hx))
          (fun x hx => hpres x (List.mem_cons_of_mem r hx))
          (rIdx + 1) _ hvis2
        have hcm : (traverse st (fuel + 1) r (some "")
            ("branch_" ++ natRepr (ts.branchCounter + 1)) 1
            { ts with branchCounter := ts.branchCounter + 1 }).1.branchCounter
            ≥ ts.branchCounter + 1 :=
          traverse_counter_mono (fuel + 1) st r (some "")
            ("branch_" ++ natRepr (ts.branchCounter + 1)) 1
            { ts with branchCounter := ts.branchCounter + 1 }
        refine ⟨(m :: t) :: segsTail, ?_, ?_, ?_, ?_⟩
        · calc (rootLoop st (fuel + 1) total rest' (rIdx + 1)
              (traverse st (fuel + 1) r (some "")
                ("branch_" ++ natRepr (ts.branchCounter + 1)) 1
                { ts with branchCounter := ts.branchCounter + 1 }).1).chatHistory
              = (traverse st (fuel + 1) r (some "")
                  ("branch_" ++ natRepr (ts.branchCounter + 1)) 1
                  { ts with branchCounter := ts.branchCounter + 1 }).1.chatHistory
                ++ segsTail.flatten := hh
            _ = (ts.chatHistory ++ m :: t) ++ segsTail.flatten := by rw [ht]
            _ = ts.chatHistory ++ ((m :: t) :: segsTail).flatten := by
                rw [List.flatten_cons]
                exact List.append_assoc _ _ _
        · simp only [List.length_cons, hlen]
        · intro j hj
          cases j with
          | zero =>
              refine ⟨m, t, rfl, ?_, ?_⟩
              · intro h0
                exact absurd h0 (by omega)
              · intro _
                exact ⟨ts.branchCounter + 1, Nat.lt_succ_self _, hbid, hlvl⟩
          | succ i =>
              have hi : i < segsTail.length := Nat.lt_of_succ_lt_succ hj
              obtain ⟨m2, r2, hgt, hmain2, hfresh2⟩ := hper i hi
              refine ⟨m2, r2, hgt, ?_, ?_⟩
              · intro h0
                exact absurd h0 (by omega)
              · intro _
                obtain ⟨k, hk, hkbid, hklvl⟩ := hfresh2 (by omega)
                exact ⟨k, by omega, hkbid, hklvl⟩
        · intro j1 j2 h1 h2 hlt m1 m2 hm1 hm2
          cases j1 with
          | zero =>
              cases j2 with
              | zero => exact absurd hlt (by omega)
              | succ i2 =>
                  have hi2 : i2 < segsTail.length := Nat.lt_of_succ_lt_succ h2
                  obtain ⟨m2', r2', hgt2, -, hfresh2⟩ := hper i2 hi2
                  have hm1' : m1 = m := (Option.some.inj hm1).symm
                  have hm2' : m2 = m2' := by
                    have hh2 : (segsTail.get ⟨i2, hi2⟩).head? = some m2 := hm2
                    rw [hgt2] at hh2
                    exact (Option.some.inj hh2).symm
                  obtain ⟨k, hk, hkbid, -⟩ := hfresh2 (by omega)
                  intro heq
                  have hstr : "branch_" ++ natRepr (ts.branchCounter + 1)
                      = "branch_" ++ natRepr k := by
                    calc "branch_" ++ natRepr (ts.branchCounter + 1)
                        = m.branch_id := hbid.symm
                      _ = m1.branch_id := by rw [hm1']
                      _ = m2.branch_id := heq
                      _ = m2'.branch_id := by rw [hm2']
                      _ = "branch_" ++ natRepr k := hkbid
                  have := branchId_inj hstr
                  omega
          | succ i1 =>
              cases j2 with
              | zero => exact absurd hlt (by omega)
              | succ i2 =>
                  have hi1 : i1 < segsTail.length := Nat.lt_of_succ_lt_succ h1
                  have hi2 : i2 < segsTail.length := Nat.lt_of_succ_lt_succ h2
                  exact hpair i1 i2 hi1 hi2 (by omega) m1 m2 hm1 hm2
      · rw [if_neg (fun hc => hpos hc.2)]
        have hr0 : rIdx = 0 := by omega
        obtain ⟨m, ⟨t, ht⟩, hbid, hlvl, -⟩ := traverse_emit st fuel r (some "")
          "main" 0 ts node hrv hgr
        have hvis2 : ∀ r2 ∈ rest', r2 ∉ (traverse st (fuel + 1) r (some "")
            "main" 0 ts).1.visited := by
          intro r2 hr2 hmem
          rcases traverse_visited st hCB (fuel + 1) r (some "")
            "main" 0 ts r2 hmem with h | h | h
          · exact absurd h (hvis r2 (List.mem_cons_of_mem r hr2))
          · exact absurd (h ▸ hr2) hndr
          · exact absurd h (hnp r2 (List.mem_cons_of_mem r hr2))
        obtain ⟨segsTail, hh, hlen, hper, hpair⟩ := ih (List.nodup_cons.mp hnd).2
          (fun x hx => hnp x (List.mem_cons_of_mem r hx))
          (fun x hx => hpres x (List.mem_cons_of_mem r hx))
          (rIdx + 1) _ hvis2
        have hcm : (traverse st (fuel + 1) r (some "") "main" 0 ts).1.branchCounter
            ≥ ts.branchCounter :=
          traverse_counter_mono (fuel + 1) st r (some "") "main" 0 ts
        refine ⟨(m :: t) :: segsTail, ?_, ?_, ?_, ?_⟩
        · calc (rootLoop st (fuel + 1) total rest' (rIdx + 1)
              (traverse st (fuel + 1) r (some "") "main" 0 ts).1).chatHistory
              = (traverse st (fuel + 1) r (some "") "main" 0 ts).1.chatHistory
                ++ segsTail.flatten := hh
            _ = (ts.chatHistory ++ m :: t) ++ segsTail.flatten := by rw [ht]
            _ = ts.chatHistory ++ ((m :: t) :: segsTail).flatten := by
                rw [List.flatten_cons]
                exact List.append_assoc _ _ _
        · simp only [List.length_cons, hlen]
        · intro j hj
          cases j with
          | zero =>
              refine ⟨m, t, rfl, fun _ => ⟨hbid, hlvl⟩, ?_⟩
              intro hgt0
              exact absurd hgt0 (by omega)
          | succ i =>
              have hi : i < segsTail.length := Nat.lt_of_succ_lt_succ hj
              obtain ⟨m2, r2, hgt, hmain2, hfresh2⟩ := hper i hi
              refine ⟨m2, r2, hgt, ?_, ?_⟩
              · intro h0
                exact absurd h0 (by omega)
              · intro _
                obtain ⟨k, hk, hkbid, hklvl⟩ := hfresh2 (by omega)
                exact ⟨k, by omega, hkbid, hklvl⟩
        · intro j1 j2 h1 h2 hlt m1 m2 hm1 hm2
          cases j1 with
          | zero =>
              cases j2 with
              | zero => exact absurd hlt (by omega)
              | succ i2 =>
                  have hi2 : i2 < segsTail.length := Nat.lt_of_succ_lt_succ h2
                  obtain ⟨m2', r2', hgt2, -, hfresh2⟩ := hper i2 hi2
                  have hm1' : m1 = m := (Option.some.inj hm1).symm
                  have hm2' : m2 = m2' := by
                    have hh2 : (segsTail.get ⟨i2, hi2⟩).head? = some m2 := hm2
                    rw [hgt2] at hh2
                    exact (Option.some.inj hh2).symm
                  obtain ⟨k, hk, hkbid, -⟩ := hfresh2 (by omega)
                  intro heq
                  have hstr : "branch_" ++ natRepr k = "main" := by
                    calc "branch_" ++ natRepr k
                        = m2'.branch_id := hkbid.symm
                      _ = m2.branch_id := by rw [hm2']
                      _ = m1.branch_id := heq.symm
                      _ = m.branch_id := by rw [hm1']
                      _ = "main" := hbid
                  exact branch_ne_main k hstr
          | succ i1 =>
              cases j2 with
              | zero => exact absurd hlt (by omega)
              | succ i2 =>
                  have hi1 : i1 < segsTail.length := Nat.lt_of_succ_lt_succ h1
                  have hi2 : i2 < segsTail.length := Nat.lt_of_succ_lt_succ h2
                  exact hpair i1 i2 hi1 hi2 (by omega) m1 m2 hm1 hm2

/-- Root ordering and assignment, as one proposition about a merger
state: the true roots are the recorded file-root candidates that remain
true roots, in first-recorded order, and the generated history splits
into one segment per true root whose first message carries branch
`"main"`/level 0 for the first root and a fresh `branch_N`/level 1 for
every later root, with pairwise-distinct starting branch ids. -/
def RootAssignment (st : JSONLMerger) : Prop :=
  st.findTrueRoots = st.rootFingerprints.filter
    (fun fp => decide (fp ∈ st.findTrueRoots)) ∧
  ∃ segs : List (List NormalizedMessage),
    st.generateChatHistory = segs.flatten ∧
    segs.length = st.findTrueRoots.length ∧
    (∀ j (hj : j < segs.length), ∃ m rest2, segs.get ⟨j, hj⟩ = m :: rest2 ∧
      (j = 0 → m.branch_id = "main" ∧ m.branch_level = 0) ∧
      (j > 0 → ∃ k, m.branch_id = "branch_" ++ natRepr k ∧ m.branch_level = 1)) ∧
    (∀ j1 j2 (h1 : j1 < segs.length) (h2 : j2 < segs.length), j1 < j2 →
      ∀ m1 m2, (segs.get ⟨j1, h1⟩).head? = some m1 →
        (segs.get ⟨j2, h2⟩).head? = some m2 → m1.branch_id ≠ m2.branch_id)

/-- C5: whenever `findTrueRoots` yields more than one root, the roots
are processed in the order the file-root candidates were first recorded
(stable, not hash order); the first root's subtree starts with branch id
`"main"` and branch level 0, and every subsequent root receives a
freshly allocated `branch_N` id with branch level 1, the `branch_N` ids
being pairwise distinct. -/
theorem claim_C5 (files : List (List Entry))
    (hmany : (runMerger files).findTrueRoots.length > 1) :
    RootAssignment (runMerger files) := by
  have hpc := runMerger_parentsClosed files
  obtain ⟨hnd, hsub, hord, hCB⟩ := runMerger_inv files
  constructor
  · exact rootsOrder_of_inv _ hpc ⟨hnd, hsub, hord, hCB⟩
  · have hkf := findTrueRoots_keysFilter (runMerger files) hpc hnd
    have hrnd : (runMerger files).findTrueRoots.Nodup := by
      rw [hkf]
      exact hnd.filter _
    have hpres : ∀ r ∈ (runMerger files).findTrueRoots,
        ∃ n, mapGet (runMerger files).nodeMap r = some n := by
      intro r hr
      rw [hkf] at hr
      exact mapGet_some_of_mapHas (mapHas_iff.mpr (List.mem_filter.mp hr).1)
    have hnp : ∀ r ∈ (runMerger files).findTrueRoots, ¬ HasPar (runMerger files) r := by
      intro r hr h
      obtain ⟨n, hn, hne⟩ := h
      rw [hkf] at hr
      have hE : emptyAtB (runMerger files) r = true := (List.mem_filter.mp hr).2
      rw [emptyAtB, parentsAt, hn] at hE
      simp at hE
      exact hne hE
    obtain ⟨segs, hh, hlen, hper, hpair⟩ := rootLoop_segs (runMerger files) hCB
      (runMerger files).nodeMap.length (runMerger files).findTrueRoots.length hmany
      (runMerger files).findTrueRoots hrnd hnp hpres 0 TravState.init
      (fun r _ hmem => absurd hmem (List.not_mem_nil r))
    refine ⟨segs, ?_, hlen, ?_, hpair⟩
    · simp only [JSONLMerger.generateChatHistory]
      rw [hh]
      simp [TravState.init]
    · intro j hj
      obtain ⟨m, r2, hgt, hmain, hfresh⟩ := hper j hj
      refine ⟨m, r2, hgt, fun h0 => hmain (by omega), fun hp => ?_⟩
      obtain ⟨k, -, hbid, hlvl⟩ := hfresh (by omega)
      exact ⟨k, hbid, hlvl⟩

set_option maxRecDepth 10000 in
theorem claim_C5_witness :
    (runMerger [[eR], [eP]]).findTrueRoots.length > 1 ∧
    RootAssignment (runMerger [[eR], [eP]]) :=
  ⟨by decide, claim_C5 [[eR], [eP]] (by decide)⟩

/-- The child loop of `traverse` splits its history growth into one
(possibly empty) segment per child: when a child's traversal emits, the
segment of the first child starts at the parent's branch id and level,
the segment of every later child starts at a freshly allocated
`branch_N` id one level deeper, and the starting branch ids of distinct
later segments are pairwise distinct. -/
lemma childLoop_segs (st : JSONLMerger) (fuel : Nat) (total : Nat) (htot : total > 1)
    (bid : String) (lvl : Nat) (cur : Option String) :
    ∀ (children : List String) (cIdx : Nat) (ts : TravState),
    ∃ segs : List (List NormalizedMessage),
      (childLoopF (fun a b c d e => traverse st fuel a b c d e) total bid lvl cur
        children cIdx ts).chatHistory = ts.chatHistory ++ segs.flatten ∧
      segs.length = children.length ∧
      (∀ j (hj : j < segs.length), segs.get ⟨j, hj⟩ = [] ∨
        ∃ m rest2, segs.get ⟨j, hj⟩ = m :: rest2 ∧
          (cIdx + j = 0 → m.branch_id = bid ∧ m.branch_level = lvl) ∧
          (cIdx + j > 0 → ∃ k, ts.branchCounter < k ∧
            m.branch_id = "branch_" ++ natRepr k ∧ m.branch_level = lvl + 1)) ∧
      (∀ j1 j2 (h1 : j1 < segs.length) (h2 : j2 < segs.length), j1 < j2 → 0 < cIdx + j1 →
        ∀ m1 m2, (segs.get ⟨j1, h1⟩).head? = some m1 →
          (segs.get ⟨j2, h2⟩).head? = some m2 → m1.branch_id ≠ m2.branch_id) := by
  intro children
  induction children with
  | nil =>
      intro cIdx ts
      refine ⟨[], by simp [childLoopF], rfl, ?_, ?_⟩
      · intro j hj
        exact absurd hj (by simp)
      · intro j1 j2 h1 h2
        exact absurd h1 (by simp)
  | cons c rest' ih =>
      intro cIdx ts
      simp only [childLoopF]
      by_cases hpos : 0 < cIdx
      · rw [if_pos ⟨htot, hpos⟩]
        obtain ⟨t0, ht0⟩ := traverse_hist_append fuel st c cur
          ("branch_" ++ natRepr (ts.branchCounter + 1)) (lvl + 1)
          { ts with branchCounter := ts.branchCounter + 1 }
        obtain ⟨segsTail, hh, hlen, hper, hpair⟩ := ih (cIdx + 1)
          (traverse st fuel c cur ("branch_" ++ natRepr (ts.branchCounter + 1)) (lvl + 1)
            { ts with branchCounter := ts.branchCounter + 1 }).1
        have hcm : ts.branchCounter + 1 ≤ (traverse st fuel c cur
            ("branch_" ++ natRepr (ts.branchCounter + 1)) (lvl + 1)
            { ts with branchCounter := ts.branchCounter + 1 }).1.branchCounter :=
          traverse_counter_mono fuel st c cur
            ("branch_" ++ natRepr (ts.branchCounter + 1)) (lvl + 1)
            { ts with branchCounter := ts.branchCounter + 1 }
        refine ⟨t0 :: segsTail, ?_, ?_, ?_, ?_⟩
        · calc (childLoopF (fun a b c d e => traverse st fuel a b c d e) total bid lvl cur
                rest' (cIdx + 1)
                (traverse st fuel c cur ("branch_" ++ natRepr (ts.branchCounter + 1))
                  (lvl + 1) { ts with branchCounter := ts.branchCounter + 1 }).1).chatHistory
              = (traverse st fuel c cur ("branch_" ++ natRepr (ts.branchCounter + 1))
                  (lvl + 1)
                  { ts with branchCounter := ts.branchCounter + 1 }).1.chatHistory
                ++ segsTail.flatten := hh
            _ = (ts.chatHistory ++ t0) ++ segsTail.flatten := by rw [ht0]
            _ = ts.chatHistory ++ (t0 :: segsTail).flatten := by
                rw [List.flatten_cons]
                exact List.append_assoc _ _ _
        · simp only [List.length_cons, hlen]
        · intro j hj
          cases j with
          | zero =>
              cases hc0 : t0 with
              | nil => exact Or.inl rfl
              | cons m t0' =>
                  rw [hc0] at ht0
                  have hhd := traverse_head st fuel c cur
                    ("branch_" ++ natRepr (ts.branchCounter + 1)) (lvl + 1)
                    { ts with branchCounter := ts.branchCounter + 1 } m t0' ht0
                  refine Or.inr ⟨m, t0', rfl, fun h0 => absurd h0 (by omega), fun _ =>
                    ⟨ts.branchCounter + 1, Nat.lt_succ_self _, hhd.1, hhd.2⟩⟩
          | succ i =>
              have hi : i < segsTail.length := Nat.lt_of_succ_lt_succ hj
              rcases hper i hi with h | ⟨m2, r2, hgt, hmain2, hfresh2⟩
              · exact Or.inl h
              · refine Or.inr ⟨m2, r2, hgt, fun h0 => absurd h0 (by omega), fun _ => ?_⟩
                obtain ⟨k, hk, hkbid, hklvl⟩ := hfresh2 (by omega)
                exact ⟨k, by omega, hkbid, hklvl⟩
        · intro j1 j2 h1 h2 hlt hp1 m1 m2 hm1 hm2
          cases j1 with
          | zero =>
              cases j2 with
              | zero => exact absurd hlt (by omega)
              | succ i2 =>
                  have hi2 : i2 < segsTail.length := Nat.lt_of_succ_lt_succ h2
                  cases hc0 : t0 with
                  | nil =>
                      rw [show ((t0 :: segsTail).get ⟨0, h1⟩) = t0 from rfl, hc0] at hm1
                      exact absurd hm1 (by simp)
                  | cons m t0' =>
                      rw [hc0] at ht0
                      have hhd := traverse_head st fuel c cur
                        ("branch_" ++ natRepr (ts.branchCounter + 1)) (lvl + 1)
                        { ts with branchCounter := ts.branchCounter + 1 } m t0' ht0
                      have hm1' : m1 = m := by
                        rw [show ((t0 :: segsTail).get ⟨0, h1⟩) = t0 from rfl, hc0] at hm1
                        exact (Option.some.inj hm1).symm
                      rcases hper i2 hi2 with h | ⟨m2', r2', hgt2, -, hfresh2⟩
                      · rw [show (((t0 :: segsTail).get ⟨i2 + 1, h2⟩))
                            = segsTail.get ⟨i2, hi2⟩ from rfl, h] at hm2
                        exact absurd hm2 (by simp)
                      · have hm2' : m2 = m2' := by
                          rw [show (((t0 :: segsTail).get ⟨i2 + 1, h2⟩))
                              = segsTail.get ⟨i2, hi2⟩ from rfl, hgt2] at hm2
                          exact (Option.some.inj hm2).symm
                        obtain ⟨k, hk, hkbid, -⟩ := hfresh2 (by omega)
                        intro heq
                        have hstr : "branch_" ++ natRepr (ts.branchCounter + 1)
                            = "branch_" ++ natRepr k := by
                          calc "branch_" ++ natRepr (ts.branchCounter + 1)
                              = m.branch_id := hhd.1.symm
                            _ = m1.branch_id := by rw [hm1']
                            _ = m2.branch_id := heq
                            _ = m2'.branch_id := by rw [hm2']
                            _ = "branch_" ++ natRepr k := hkbid
                        have := branchId_inj hstr
                        omega
          | succ i1 =>
              cases j2 with
              | zero => exact absurd hlt (by omega)
              | succ i2 =>
                  have hi1 : i1 < segsTail.length := Nat.lt_of_succ_lt_succ h1
                  have hi2 : i2 < segsTail.length := Nat.lt_of_succ_lt_succ h2
                  exact hpair i1 i2 hi1 hi2 (by omega) (by omega) m1 m2 hm1 hm2
      · rw [if_neg (fun hc => hpos hc.2)]
        have hc0idx : cIdx = 0 := by omega
        obtain ⟨t0, ht0⟩ := traverse_hist_append fuel st c cur bid lvl ts
        obtain ⟨segsTail, hh, hlen, hper, hpair⟩ := ih (cIdx + 1)
          (traverse st fuel c cur bid lvl ts).1
        have hcm : ts.branchCounter ≤ (traverse st fuel c cur bid lvl ts).1.branchCounter :=
          traverse_counter_mono fuel st c cur bid lvl ts
        refine ⟨t0 :: segsTail, ?_, ?_, ?_, ?_⟩
        · calc (childLoopF (fun a b c d e => traverse st fuel a b c d e) total bid lvl cur
                rest' (cIdx + 1) (traverse st fuel c cur bid lvl ts).1).chatHistory
              = (traverse st fuel c cur bid lvl ts).1.chatHistory
                ++ segsTail.flatten := hh
            _ = (ts.chatHistory ++ t0) ++ segsTail.flatten := by rw [ht0]
            _ = ts.chatHistory ++ (t0 :: segsTail).flatten := by
                rw [List.flatten_cons]
                exact List.append_assoc _ _ _
        · simp only [List.length_cons, hlen]
        · intro j hj
          cases j with
          | zero =>
              cases hc0 : t0 with
              | nil => exact Or.inl rfl
              | cons m t0' =>
                  rw [hc0] at ht0
                  have hhd := traverse_head st fuel c cur bid lvl ts m t0' ht0
                  refine Or.inr ⟨m, t0', rfl, fun _ => ⟨hhd.1, hhd.2⟩, fun h0 =>
                    absurd h0 (by omega)⟩
          | succ i =>
              have hi : i < segsTail.length := Nat.lt_of_succ_lt_succ hj
              rcases hper i hi with h | ⟨m2, r2, hgt, hmain2, hfresh2⟩
              · exact Or.inl h
              · refine Or.inr ⟨m2, r2, hgt, fun h0 => absurd h0 (by omega), fun _ => ?_⟩
                obtain ⟨k, hk, hkbid, hklvl⟩ := hfresh2 (by omega)
                exact ⟨k, by omega, hkbid, hklvl⟩
        · intro j1 j2 h1 h2 hlt hp1 m1 m2 hm1 hm2
          cases j1 with
          | zero => exact absurd hp1 (by omega)
          | succ i1 =>
              cases j2 with
              | zero => exact absurd hlt (by omega)
              | succ i2 =>
                  have hi1 : i1 < segsTail.length := Nat.lt_of_succ_lt_succ h1
                  have hi2 : i2 < segsTail.length := Nat.lt_of_succ_lt_succ h2
                  exact hpair i1 i2 hi1 hi2 (by omega) (by omega) m1 m2 hm1 hm2

/-- Branch assignment at a fork, as one proposition about a `traverse`
call on an unvisited parent: the parent's first emitted message keeps
the caller's branch id and level and is tagged as a branch point, and
the history the children add splits into one (possibly empty) segment
per child; a segment is empty exactly when that child's traversal emits
nothing (already visited, absent, or out of fuel), the first child's
segment continues the parent's branch id and level, every later child's
segment starts a fresh `branch_N` id one level deeper, and those fresh
ids are pairwise distinct. -/
def ForkAssignment (st : JSONLMerger) (fuel : Nat) (fp : String) (pu : Option String)
    (bid : String) (lvl : Nat) (ts : TravState) (node : MessageNode) : Prop :=
  ∃ (pmsg : NormalizedMessage) (pms : List NormalizedMessage)
    (segs : List (List NormalizedMessage)),
    (traverse st (fuel + 1) fp pu bid lvl ts).1.chatHistory
      = ts.chatHistory ++ (pmsg :: pms) ++ segs.flatten ∧
    pmsg.branch_id = bid ∧ pmsg.branch_level = lvl ∧ pmsg.is_branch_point = true ∧
    segs.length = node.children.length ∧
    (∀ j (hj : j < segs.length), segs.get ⟨j, hj⟩ = [] ∨
      ∃ m rest2, segs.get ⟨j, hj⟩ = m :: rest2 ∧
        (j = 0 → m.branch_id = bid ∧ m.branch_level = lvl) ∧
        (j > 0 → ∃ k, m.branch_id = "branch_" ++ natRepr k ∧
          m.branch_level = lvl + 1)) ∧
    (∀ j1 j2 (h1 : j1 < segs.length) (h2 : j2 < segs.length), j1 < j2 → 0 < j1 →
      ∀ m1 m2, (segs.get ⟨j1, h1⟩).head? = some m1 →
        (segs.get ⟨j2, h2⟩).head? = some m2 → m1.branch_id ≠ m2.branch_id)

/-- C3 (amended): for an unvisited emitted parent whose node has more
than one child, the parent message is tagged as a branch point, the
first child is traversed with the parent's branch id and level, and
every later child with a freshly allocated, pairwise-distinct
`branch_N` id one level deeper; a child whose traversal emits nothing
(in particular an already-visited child, which keeps its earlier branch
assignment) contributes an empty segment instead. -/
theorem claim_C3 (st : JSONLMerger) (fuel : Nat) (fp : String) (pu : Option String)
    (bid : String) (lvl : Nat) (ts : TravState) (node : MessageNode)
    (hv : fp ∉ ts.visited) (hg : mapGet st.nodeMap fp = some node)
    (hk : node.children.length > 1) :
    ForkAssignment st fuel fp pu bid lvl ts node := by
  rw [ForkAssignment, traverse.eq_2, if_neg hv]
  simp only [hg]
  by_cases hsw : ((!node.entry.is_user) = true ∧ (node.entry.swipes.getD []).length > 1)
  · rw [if_pos hsw]
    obtain ⟨s, rest, hsr⟩ : ∃ s rest, node.entry.swipes.getD [] = s :: rest := by
      cases hl : node.entry.swipes.getD [] with
      | nil => rw [hl] at hsw; exact absurd hsw.2 (by simp)
      | cons a l => exact ⟨a, l, rfl⟩
    rw [hsr]
    obtain ⟨m, ⟨t1, ht1⟩, hbid, hlvl, hbp⟩ := swipeLoop_emit fp pu
      (jsStrOr node.entry.name "Unknown")
      (if node.entry.is_user = true then "User" else jsStrOr node.entry.name "Unknown")
      (jsStrOr node.entry.send_date "") node.entry.is_user
      (decide (node.children.length > 1)) (s :: rest).length (node.entry.swipe_id.getD 0)
      bid lvl s rest { ts with visited := ts.visited ++ [fp] } none
    obtain ⟨segs, hh, hlen, hper, hpair⟩ := childLoop_segs st fuel
      node.children.length hk bid lvl
      (swipeLoop fp pu (jsStrOr node.entry.name "Unknown")
        (if node.entry.is_user = true then "User" else jsStrOr node.entry.name "Unknown")
        (jsStrOr node.entry.send_date "") node.entry.is_user
        (decide (node.children.length > 1)) (s :: rest).length
        (node.entry.swipe_id.getD 0) bid lvl (s :: rest) 0
        { ts with visited := ts.visited ++ [fp] } none).2
      node.children 0
      (swipeLoop fp pu (jsStrOr node.entry.name "Unknown")
        (if node.entry.is_user = true then "User" else jsStrOr node.entry.name "Unknown")
        (jsStrOr node.entry.send_date "") node.entry.is_user
        (decide (node.children.length > 1)) (s :: rest).length
        (node.entry.swipe_id.getD 0) bid lvl (s :: rest) 0
        { ts with visited := ts.visited ++ [fp] } none).1
    refine ⟨m, t1, segs, ?_, hbid, hlvl, hbp (decide_eq_true hk), hlen, ?_, ?_⟩
    · exact hh.trans (by rw [ht1])
    · intro j hj
      rcases hper j hj with h | ⟨m2, r2, hgt, hmain, hfresh⟩
      · exact Or.inl h
      · refine Or.inr ⟨m2, r2, hgt, fun h0 => hmain (by omega), fun hp => ?_⟩
        obtain ⟨k, -, hkbid, hklvl⟩ := hfresh (by omega)
        exact ⟨k, hkbid, hklvl⟩
    · intro j1 j2 h1 h2 hlt hp1 m1 m2 hm1 hm2
      exact hpair j1 j2 h1 h2 hlt (by omega) m1 m2 hm1 hm2
  · rw [if_neg hsw, if_pos hk]
    obtain ⟨segs, hh, hlen, hper, hpair⟩ := childLoop_segs st fuel
      node.children.length hk bid lvl (some (mkUuid bid ts.msgIndex)) node.children 0
      { ts with visited := ts.visited ++ [fp],
                fpToUuid := strMapSet ts.fpToUuid fp (mkUuid bid ts.msgIndex),
                chatHistory := ts.chatHistory ++
                  [{ JSONLMerger.createMessage ts.msgIndex (mkUuid bid ts.msgIndex) pu
                      (jsStrOr node.entry.name "Unknown")
                      (if node.entry.is_user = true then "User"
                        else jsStrOr node.entry.name "Unknown")
                      (jsStrOr node.entry.send_date "") node.entry.is_user
                      (jsStrOr node.entry.mes (jsStrOr (node.entry.swipes.getD []).head? ""))
                      bid lvl none with is_branch_point := true }],
                msgIndex := ts.msgIndex + 1 }
    refine ⟨_, [], segs, hh.trans rfl, rfl, rfl, rfl, hlen, ?_, ?_⟩
    · intro j hj
      rcases hper j hj with h | ⟨m2, r2, hgt, hmain, hfresh⟩
      · exact Or.inl h
      · refine Or.inr ⟨m2, r2, hgt, fun h0 => hmain (by omega), fun hp => ?_⟩
        obtain ⟨k, -, hkbid, hklvl⟩ := hfresh (by omega)
        exact ⟨k, hkbid, hklvl⟩
    · intro j1 j2 h1 h2 hlt hp1 m1 m2 hm1 hm2
      exact hpair j1 j2 h1 h2 hlt (by omega) m1 m2 hm1 hm2

set_option maxRecDepth 10000 in
theorem claim_C3_witness :
    (generateMessageFingerprint eP ∉ TravState.init.visited ∧
      mapGet (((JSONLMerger.init.addFile [eR, eC] 0).addFile [eP, eC] 1).addFile
          [eP, eD] 2).nodeMap (generateMessageFingerprint eP) =
        some ⟨"p|false|34", eP, [], ["c|false|2r", "d|false|2s"], [1, 2], true⟩ ∧
      (⟨"p|false|34", eP, [], ["c|false|2r", "d|false|2s"], [1, 2], true⟩
        : MessageNode).children.length > 1) ∧
    ForkAssignment
      (((JSONLMerger.init.addFile [eR, eC] 0).addFile [eP, eC] 1).addFile [eP, eD] 2)
      5 (generateMessageFingerprint eP) none "main" 0 TravState.init
      ⟨"p|false|34", eP, [], ["c|false|2r", "d|false|2s"], [1, 2], true⟩ :=
  ⟨⟨by decide, by decide, by decide⟩,
    claim_C3 (((JSONLMerger.init.addFile [eR, eC] 0).addFile [eP, eC] 1).addFile
        [eP, eD] 2)
      5 (generateMessageFingerprint eP) none "main" 0 TravState.init
      ⟨"p|false|34", eP, [], ["c|false|2r", "d|false|2s"], [1, 2], true⟩
      (by decide) (by decide) (by decide)⟩
